import Mathlib

/-! SimpleFileSystem: the storage engine of `nufs.c`

A shallow embedding of the block/bitmap/directory code of `src/nufs.c`.

* The memory-mapped disk image (`blocks_base`, `NUFS_SIZE` bytes) is a list of
  bytes, `Image`; a byte is a natural number, kept below 256 by every store.
* A C pointer into the image is the byte offset from `blocks_base`.
* `int` indices that the code only uses as non-negative indices are `Nat`;
  `int` results that can be `-1` are `Int`.
* `printf` calls are diagnostic output and are left out.
-/

namespace Nufs

set_option linter.unusedVariables false

/-! ## Constants (nufs.c, lines 19-45) -/

/-- The mapped image: byte `p` of the list is the byte at `blocks_base + p`. -/
abbrev Image := List Nat

def BLOCK_COUNT : Nat := 256
def BLOCK_SIZE : Nat := 4096
def NUFS_SIZE : Nat := BLOCK_SIZE * BLOCK_COUNT
def BLOCK_BITMAP_SIZE : Nat := BLOCK_COUNT / 8
def INODE_BITMAP_SIZE : Nat := BLOCK_COUNT / 8
def NUM_INODES : Nat := 251

/-- The size of `inode_t`: two `int` fields of four bytes each. -/
def sizeof_inode_t : Nat := 8

def nth_bit_mask (n : Nat) : Nat := 1 <<< n
def byte_index (n : Nat) : Nat := n / 8
def bit_index (n : Nat) : Nat := n % 8

/-! ## Memory access -/

/-- Read of the `uint8_t` at offset `p` (reads outside the list give `0`). -/
def load (img : Image) (p : Nat) : Nat := img.getD p 0

/-- Write of a value to the `uint8_t` at offset `p`: the value is truncated
to eight bits (writes outside the list change nothing). -/
def store (img : Image) (p : Nat) (b : Nat) : Image := img.set p (b % 256)

/-- Every element of the image is a byte. -/
def BytesOk (img : Image) : Prop := ∀ b ∈ img, b < 256

/-! ## Bitmap helper code (nufs.c, lines 51-70) -/

/-- The C function `bitmap_get(bm, i)`: `(base[i / 8] >> (i % 8)) & 1`. -/
def bitmap_get (img : Image) (bm : Nat) (i : Nat) : Nat :=
  (load img (bm + byte_index i) >>> bit_index i) &&& 1

/-- The C function `bitmap_put(bm, i, v)`. The mask is a `long`; its
complement `~bit_mask` is taken in 64 bits. -/
def bitmap_put (img : Image) (bm : Nat) (i : Nat) (v : Int) : Image :=
  let bit_mask := nth_bit_mask (bit_index i)
  if v ≠ 0 then
    store img (bm + byte_index i) (load img (bm + byte_index i) ||| bit_mask)
  else
    let bit_mask := 2 ^ 64 - 1 - bit_mask
    store img (bm + byte_index i) (load img (bm + byte_index i) &&& bit_mask)

/-! ## Blocks helper code (nufs.c, lines 104-193) -/

/-- The C function `blocks_get_block(bnum)`: `blocks_base + BLOCK_SIZE * bnum`. -/
def blocks_get_block (bnum : Nat) : Nat := BLOCK_SIZE * bnum

/-- The C function `get_blocks_bitmap()`: the start of block 0. -/
def get_blocks_bitmap : Nat := blocks_get_block 0

/-- The C function `get_inode_bitmap()`: `block + BLOCK_BITMAP_SIZE`. -/
def get_inode_bitmap : Nat := blocks_get_block 0 + BLOCK_BITMAP_SIZE

/-- The C function `get_inode(inum)`: the `inode_t` pointer
`(block + BLOCK_BITMAP_SIZE + INODE_BITMAP_SIZE)` advanced by `inum` records. -/
def get_inode (inum : Nat) : Nat :=
  blocks_get_block 0 + BLOCK_BITMAP_SIZE + INODE_BITMAP_SIZE + sizeof_inode_t * inum

/-- The C function `directory_get(dnum)`: `dir_base + 64 * dnum`. -/
def directory_get (dnum : Nat) : Nat := blocks_get_block 1 + 64 * dnum

/-- The system call `ftruncate(fd, n)` on the contents of a file: the file is
cut to `n` bytes or extended to `n` bytes with zero bytes. -/
def ftruncate (file : List Nat) (n : Nat) : List Nat :=
  file.take n ++ List.replicate (n - file.length) 0

/-- The C function `blocks_init(image_path)`, on the contents of the file at
`image_path` (the empty list when `open` creates it): the file is resized to
`NUFS_SIZE`, mapped, and the bits 0..4 of the block bitmap are set. The three
assertions on the system calls are taken to hold. -/
def blocks_init (file : List Nat) : Image :=
  let blocks_base := ftruncate file NUFS_SIZE
  let bbm := get_blocks_bitmap
  (List.range 5).foldl (fun img i => bitmap_put img bbm i 1) blocks_base

/-- The loop of `alloc_block`, with `n` iterations left and loop variable
`ii`: the first clear bit is set and its index returned; `-1` otherwise. -/
def alloc_block_loop (img : Image) (bbm : Nat) : Nat → Nat → Int × Image
  | 0, _ => (-1, img)
  | n + 1, ii =>
    if bitmap_get img bbm ii = 0 then
      ((ii : Int), bitmap_put img bbm ii 1)
    else
      alloc_block_loop img bbm n (ii + 1)

/-- The C function `alloc_block()`: `for (ii = 5; ii < BLOCK_COUNT; ++ii)`.
The result is the returned `int` and the image after the call. -/
def alloc_block (img : Image) : Int × Image :=
  alloc_block_loop img get_blocks_bitmap (BLOCK_COUNT - 5) 5

/-- The C function `free_block(bnum)`. -/
def free_block (img : Image) (bnum : Nat) : Image :=
  bitmap_put img get_blocks_bitmap bnum 0

/-! ## Sequences of calls -/

/-- The image after `n` successive calls of `alloc_block`. -/
def alloc_state (img : Image) : Nat → Image
  | 0 => img
  | n + 1 => (alloc_block (alloc_state img n)).2

/-- The value returned by call number `n` (counted from 0) of a sequence of
successive calls of `alloc_block`. -/
def alloc_result (img : Image) (n : Nat) : Int :=
  (alloc_block (alloc_state img n)).1

/-- A call on the block allocator. -/
inductive BlockOp where
  | alloc : BlockOp
  | free : Nat → BlockOp
  deriving DecidableEq

/-- The image after one call. -/
def run_op (img : Image) : BlockOp → Image
  | BlockOp.alloc => (alloc_block img).2
  | BlockOp.free bnum => free_block img bnum

/-- The image after a sequence of calls, first call first. -/
def run_ops (img : Image) (ops : List BlockOp) : Image :=
  ops.foldl run_op img

/-! ## Metadata layout -/

/-- The metadata areas that the pointer functions of the code address. -/
inductive Region where
  | block_bitmap : Region
  | inode_bitmap : Region
  | inode_record : Nat → Region
  | dir_slot : Nat → Region
  deriving DecidableEq

/-- The offset of the first byte of an area, as the code computes it. -/
def Region.start : Region → Nat
  | Region.block_bitmap => get_blocks_bitmap
  | Region.inode_bitmap => get_inode_bitmap
  | Region.inode_record inum => get_inode inum
  | Region.dir_slot dnum => directory_get dnum

/-- The number of bytes of an area. -/
def Region.size : Region → Nat
  | Region.block_bitmap => BLOCK_BITMAP_SIZE
  | Region.inode_bitmap => INODE_BITMAP_SIZE
  | Region.inode_record _ => sizeof_inode_t
  | Region.dir_slot _ => 64

/-- The index of an area is in range: inode numbers below `NUM_INODES`,
directory slots below `BLOCK_COUNT`. -/
def Region.valid : Region → Prop
  | Region.block_bitmap => True
  | Region.inode_bitmap => True
  | Region.inode_record inum => inum < NUM_INODES
  | Region.dir_slot dnum => dnum < BLOCK_COUNT

/-! ## Directory code (nufs.c, lines 152-171) -/

/-- The C library function `strcmp(name, p)`, for a first argument given by
its bytes (a terminating NUL follows the list) and a second argument read from
the image at offset `p`: the difference of the first two bytes that differ,
0 when both strings end together. -/
def strcmp (img : Image) : List Nat → Nat → Int
  | [], p => 0 - (load img p : Int)
  | c :: cs, p =>
    if c ≠ load img p then (c : Int) - (load img p : Int)
    else if c = 0 then 0
    else strcmp img cs (p + 1)

/-- The loop of `directory_lookup`, with `n` iterations left and loop
variable `i`. -/
def directory_lookup_loop (img : Image) (name : List Nat) : Nat → Nat → Int × Image
  | 0, _ => (-1, img)
  | n + 1, i =>
    if strcmp img name (directory_get i) = 0 then ((i : Int), img)
    else directory_lookup_loop img name n (i + 1)

/-- The C function `directory_lookup(name)`: `for (i = 0; i < BLOCK_COUNT; ++i)`.
The result is the returned `int` and the image after the call. -/
def directory_lookup (img : Image) (name : List Nat) : Int × Image :=
  directory_lookup_loop img name BLOCK_COUNT 0

/-- The `n` bytes of the image from offset `p`. -/
def read_bytes (img : Image) : Nat → Nat → List Nat
  | _, 0 => []
  | p, n + 1 => load img p :: read_bytes img (p + 1) n

/-- The 64 bytes of directory slot `dnum`. -/
def slot_bytes (img : Image) (dnum : Nat) : List Nat :=
  read_bytes img (directory_get dnum) 64

/-- The name that a slot stores: its bytes before the first NUL. -/
def slot_name (img : Image) (dnum : Nat) : List Nat :=
  (slot_bytes img dnum).takeWhile (fun b => b != 0)

/-! ## More blocks and directory code (nufs.c, lines 92-101 and 158-161) -/

/-- The C function `bytes_to_blocks(bytes)`; `/` and `%` on `int` round
towards zero. For an `int` argument `quo + 1` is below `2 ^ 31`, so no
overflow occurs. -/
def bytes_to_blocks (bytes : Int) : Int :=
  let quo := Int.tdiv bytes (BLOCK_SIZE : Int)
  let rem := Int.tmod bytes (BLOCK_SIZE : Int)
  if rem = 0 then quo else quo + 1

/-- The C library function `strncpy(dst, src, n)`, for a source given by its
bytes (a terminating NUL follows the list) and a destination at offset `dst`
of the image: exactly `n` bytes are written, the bytes of the source string
and, once its end is reached, NUL bytes. -/
def strncpy : Image → Nat → List Nat → Nat → Image
  | img, _, _, 0 => img
  | img, dst, [], n + 1 => strncpy (store img dst 0) (dst + 1) [] n
  | img, dst, c :: cs, n + 1 =>
    if c = 0 then strncpy (store img dst 0) (dst + 1) [] n
    else strncpy (store img dst c) (dst + 1) cs n

/-- The C function `directory_put(dnum, name)`:
`strncpy(directory_get(dnum), name, 64)`. It returns nothing. -/
def directory_put (img : Image) (dnum : Nat) (name : List Nat) : Image :=
  strncpy img (directory_get dnum) name 64

/-! ## nufs functions (nufs.c, lines 200-336) -/

/-- The constant `ENOENT` of `errno.h` (its value on Linux). -/
def ENOENT : Int := 2

/-- Read of the `int` at offset `p`: four bytes, least significant first, in
two's complement (the layout on the x86 targets of the program). -/
def load_int (img : Image) (p : Nat) : Int :=
  let u := load img p + 256 * load img (p + 1) + 65536 * load img (p + 2)
    + 16777216 * load img (p + 3)
  if u < 2 ^ 31 then (u : Int) else (u : Int) - 2 ^ 32

/-- The fields of `struct stat` that the code writes. -/
structure Stat where
  st_mode : Nat
  st_size : Int
  st_uid : Nat
  deriving DecidableEq

/-- The string literal `"/"`. -/
def str_root : List Nat := [47]

/-- The string literal `"."`. -/
def str_dot : List Nat := [46]

/-- The string literal `"/hello.txt"`. -/
def str_slash_hello_txt : List Nat := [47, 104, 101, 108, 108, 111, 46, 116, 120, 116]

/-- The string literal `"hello.txt"`. -/
def str_hello_txt : List Nat := [104, 101, 108, 108, 111, 46, 116, 120, 116]

/-- The string literal `"hello\n"`. -/
def str_hello_nl : List Nat := [104, 101, 108, 108, 111, 10]

/-- The C function `nufs_access(path, mask)`. -/
def nufs_access (img : Image) (path : List Nat) (mask : Int) : Int × Image :=
  let r := directory_lookup img path
  if r.1 ≥ 0 then
    (0, r.2)
  else
    (-ENOENT, r.2)

/-- The C function `nufs_getattr(path, st)`; `uid` is the value of `getuid()`.
The result is the returned `int`, the record `*st` and the image after the
call. -/
def nufs_getattr (img : Image) (uid : Nat) (path : List Nat) (st : Stat) :
    Int × Stat × Image :=
  let r := directory_lookup img path
  let inum := r.1
  if inum < 0 then
    (-ENOENT, st, r.2)
  else
    let node := get_inode inum.toNat
    (0, { st_mode := 0o100644, st_size := load_int r.2 node, st_uid := uid }, r.2)

/-- The C function `nufs_readdir(path, buf, filler, offset, fi)`. The local
`struct stat st` starts with the arbitrary contents `st0`; `filler` is the
callback, applied to the buffer `buf`; a failed assertion is `none`. -/
def nufs_readdir {β : Type} (img : Image) (uid : Nat) (st0 : Stat) (path : List Nat) (buf : β)
    (filler : β → List Nat → Stat → β) (offset : Int) : Option (Int × β × Image) :=
  let g1 := nufs_getattr img uid str_root st0
  if g1.1 ≠ 0 then none
  else
    let buf1 := filler buf str_dot g1.2.1
    let g2 := nufs_getattr g1.2.2 uid str_slash_hello_txt g1.2.1
    if g2.1 ≠ 0 then none
    else
      let buf2 := filler buf1 str_hello_txt g2.2.1
      some (0, buf2, g2.2.2)

/-- A callback that records the entries it is given, in order. -/
def record_entry (buf : List (List Nat × Stat)) (name : List Nat) (st : Stat) :
    List (List Nat × Stat) :=
  buf ++ [(name, st)]

/-- The C function `nufs_mknod(path, mode, rdev)`. -/
def nufs_mknod (img : Image) (path : List Nat) (mode : Nat) (rdev : Nat) : Int × Image :=
  let rv : Int := -1
  (rv, img)

/-- The C library function `strcpy(buf, src)` on a buffer outside the image:
the bytes of `src` and a NUL replace the start of the buffer. -/
def strcpy (buf : List Nat) (src : List Nat) : List Nat :=
  src ++ [0] ++ buf.drop (src.length + 1)

/-- The C function `nufs_read(path, buf, size, offset, fi)`. The result is the
returned `int`, the buffer and the image after the call. -/
def nufs_read (img : Image) (path : List Nat) (buf : List Nat) (size : Nat) (offset : Int) :
    Int × List Nat × Image :=
  let rv : Int := 6
  (rv, strcpy buf str_hello_nl, img)

/-- The C function `nufs_write(path, buf, size, offset, fi)`. -/
def nufs_write (img : Image) (path : List Nat) (buf : List Nat) (size : Nat) (offset : Int) :
    Int × Image :=
  let rv : Int := -1
  (rv, img)

/-! ## Basic facts about memory and bits -/

theorem length_store (img : Image) (p b : Nat) : (store img p b).length = img.length := by
  simp [store]

theorem load_store_same (img : Image) (p b : Nat) (h : p < img.length) :
    load (store img p b) p = b % 256 := by
  simp [load, store, List.getD_eq_getElem?_getD, List.getElem?_set, h]

theorem load_store_other (img : Image) (p q b : Nat) (h : q ≠ p) :
    load (store img p b) q = load img q := by
  simp [load, store, List.getD_eq_getElem?_getD, List.getElem?_set, Ne.symm h]

theorem getElem?_store_other (img : Image) (p q b : Nat) (h : q ≠ p) :
    (store img p b)[q]? = img[q]? := by
  simp [store, List.getElem?_set, Ne.symm h]

theorem load_lt_of_bytesOk (img : Image) (h : BytesOk img) (p : Nat) : load img p < 256 := by
  unfold load
  rw [List.getD_eq_getElem?_getD]
  cases hp : img[p]? with
  | none => simp
  | some b =>
    simp only [Option.getD_some]
    exact h b (List.mem_iff_getElem?.2 ⟨p, hp⟩)

theorem bytesOk_store (img : Image) (h : BytesOk img) (p b : Nat) : BytesOk (store img p b) := by
  intro x hx
  unfold store at hx
  rcases List.mem_or_eq_of_mem_set hx with hx | hx
  · exact h x hx
  · subst hx
    exact Nat.mod_lt _ (by norm_num)

/-- Reading one bit by shift and mask is `Nat.testBit`. -/
theorem shift_and_one (b k : Nat) : (b >>> k) &&& 1 = if b.testBit k then 1 else 0 := by
  rw [Nat.and_one_is_mod, Nat.shiftRight_eq_div_pow, Nat.testBit_to_div_mod]
  rcases Nat.mod_two_eq_zero_or_one (b / 2 ^ k) with h | h <;> simp [h]

theorem testBit_set_byte (b k j : Nat) :
    ((b ||| nth_bit_mask k) % 256).testBit j = (decide (j < 8) && (b.testBit j || decide (k = j))) := by
  have h256 : (256 : Nat) = 2 ^ 8 := by norm_num
  rw [h256, Nat.testBit_mod_two_pow, Nat.testBit_or, nth_bit_mask, Nat.one_shiftLeft,
    Nat.testBit_two_pow]

theorem testBit_clear_byte (b k j : Nat) (hk : k < 8) :
    ((b &&& (2 ^ 64 - 1 - nth_bit_mask k)) % 256).testBit j
      = (decide (j < 8) && (b.testBit j && !decide (k = j))) := by
  have h256 : (256 : Nat) = 2 ^ 8 := by norm_num
  have hlt : 2 ^ k < 2 ^ 64 := Nat.pow_lt_pow_right (by norm_num) (by omega)
  have hsub : 2 ^ 64 - 1 - nth_bit_mask k = 2 ^ 64 - (2 ^ k + 1) := by
    rw [nth_bit_mask, Nat.one_shiftLeft]; omega
  rw [hsub, h256, Nat.testBit_mod_two_pow, Nat.testBit_and, Nat.testBit_two_pow_sub_succ hlt,
    Nat.testBit_two_pow]
  by_cases hj : j < 8
  · have : j < 64 := by omega
    simp [hj, this]
  · simp [hj]

theorem bit_index_lt (i : Nat) : bit_index i < 8 := Nat.mod_lt _ (by norm_num)

/-- The bit read back at the index just written. -/
theorem bitmap_get_put_same (img : Image) (bm i : Nat) (v : Int)
    (h : bm + byte_index i < img.length) :
    bitmap_get (bitmap_put img bm i v) bm i = if v ≠ 0 then 1 else 0 := by
  unfold bitmap_get bitmap_put
  by_cases hv : v ≠ 0
  · rw [if_pos hv, if_pos hv, load_store_same _ _ _ h, shift_and_one, testBit_set_byte]
    simp [bit_index_lt i]
  · rw [if_neg hv, if_neg hv, load_store_same _ _ _ h, shift_and_one,
      testBit_clear_byte _ _ _ (bit_index_lt i)]
    simp

theorem store_eq_self_of_length_le (img : Image) (p b : Nat) (h : img.length ≤ p) :
    store img p b = img := by
  unfold store
  exact List.set_eq_of_length_le h

theorem length_bitmap_put (img : Image) (bm i : Nat) (v : Int) :
    (bitmap_put img bm i v).length = img.length := by
  unfold bitmap_put
  by_cases hv : v ≠ 0
  · simp only [if_pos hv, length_store]
  · simp only [if_neg hv, length_store]

/-- Bytes other than byte `i / 8` of the bitmap keep their value. -/
theorem getElem?_bitmap_put_other (img : Image) (bm i q : Nat) (v : Int)
    (h : q ≠ bm + byte_index i) : (bitmap_put img bm i v)[q]? = img[q]? := by
  unfold bitmap_put
  by_cases hv : v ≠ 0
  · simp only [if_pos hv]; exact getElem?_store_other _ _ _ _ h
  · simp only [if_neg hv]; exact getElem?_store_other _ _ _ _ h

theorem load_bitmap_put_other (img : Image) (bm i q : Nat) (v : Int)
    (h : q ≠ bm + byte_index i) : load (bitmap_put img bm i v) q = load img q := by
  unfold load
  rw [List.getD_eq_getElem?_getD, List.getD_eq_getElem?_getD, getElem?_bitmap_put_other _ _ _ _ _ h]

/-- Bits other than bit `i` keep their value. -/
theorem bitmap_get_put_other (img : Image) (bm i j : Nat) (v : Int) (h : j ≠ i) :
    bitmap_get (bitmap_put img bm i v) bm j = bitmap_get img bm j := by
  by_cases hb : byte_index j = byte_index i
  · by_cases hlen : bm + byte_index i < img.length
    · have hk : bit_index i ≠ bit_index j := by
        unfold byte_index at hb
        unfold bit_index
        omega
      unfold bitmap_get bitmap_put
      rw [hb]
      by_cases hv : v ≠ 0
      · rw [if_pos hv, load_store_same _ _ _ hlen, shift_and_one, shift_and_one,
          testBit_set_byte]
        simp [bit_index_lt j, hk]
      · rw [if_neg hv, load_store_same _ _ _ hlen, shift_and_one, shift_and_one,
          testBit_clear_byte _ _ _ (bit_index_lt i)]
        simp [bit_index_lt j, hk]
    · have hle : img.length ≤ bm + byte_index i := Nat.le_of_not_lt hlen
      have : bitmap_put img bm i v = img := by
        unfold bitmap_put
        by_cases hv : v ≠ 0
        · simp only [if_pos hv]; exact store_eq_self_of_length_le _ _ _ hle
        · simp only [if_neg hv]; exact store_eq_self_of_length_le _ _ _ hle
      rw [this]
  · unfold bitmap_get
    rw [load_bitmap_put_other]
    omega

theorem bitmap_get_le_one (img : Image) (bm i : Nat) : bitmap_get img bm i ≤ 1 := by
  unfold bitmap_get
  rw [shift_and_one]
  split <;> simp

theorem bitmap_get_eq_one_of_ne_zero (img : Image) (bm i : Nat)
    (h : bitmap_get img bm i ≠ 0) : bitmap_get img bm i = 1 := by
  have := bitmap_get_le_one img bm i
  omega

/-! ## The allocation loop -/

/-- A scan over set bits only fails and leaves the image as it is. -/
theorem alloc_block_loop_none (img : Image) (bbm : Nat) :
    ∀ (n ii : Nat), (∀ j, ii ≤ j → j < ii + n → bitmap_get img bbm j ≠ 0) →
      alloc_block_loop img bbm n ii = (-1, img) := by
  intro n
  induction n with
  | zero => intro ii _; rfl
  | succ n ih =>
    intro ii h
    have h0 : bitmap_get img bbm ii ≠ 0 := h ii (Nat.le_refl _) (by omega)
    rw [alloc_block_loop, if_neg h0]
    exact ih (ii + 1) (fun j h1 h2 => h j (by omega) (by omega))

/-- A scan that meets a first clear bit `k` sets it and returns `k`. -/
theorem alloc_block_loop_some (img : Image) (bbm : Nat) :
    ∀ (n ii k : Nat), ii ≤ k → k < ii + n → bitmap_get img bbm k = 0 →
      (∀ j, ii ≤ j → j < k → bitmap_get img bbm j ≠ 0) →
      alloc_block_loop img bbm n ii = ((k : Int), bitmap_put img bbm k 1) := by
  intro n
  induction n with
  | zero => intro ii k h1 h2; omega
  | succ n ih =>
    intro ii k h1 h2 hk hlow
    rw [alloc_block_loop]
    by_cases hii : bitmap_get img bbm ii = 0
    · rw [if_pos hii]
      have : k = ii := by
        by_contra hne
        exact hlow ii (Nat.le_refl _) (by omega) hii
      rw [this]
    · rw [if_neg hii]
      have hne : k ≠ ii := fun e => hii (e ▸ hk)
      exact ih (ii + 1) k (by omega) (by omega) hk (fun j a b => hlow j (by omega) b)

/-- The two outcomes of the scan. -/
theorem alloc_block_loop_cases (img : Image) (bbm : Nat) :
    ∀ (n ii : Nat),
      ((∀ j, ii ≤ j → j < ii + n → bitmap_get img bbm j ≠ 0) ∧
        alloc_block_loop img bbm n ii = (-1, img)) ∨
      (∃ k, ii ≤ k ∧ k < ii + n ∧ bitmap_get img bbm k = 0 ∧
        (∀ j, ii ≤ j → j < k → bitmap_get img bbm j ≠ 0) ∧
        alloc_block_loop img bbm n ii = ((k : Int), bitmap_put img bbm k 1)) := by
  intro n ii
  by_cases h : ∀ j, ii ≤ j → j < ii + n → bitmap_get img bbm j ≠ 0
  · exact Or.inl ⟨h, alloc_block_loop_none img bbm n ii h⟩
  · right
    have hex : ∃ j, ii ≤ j ∧ j < ii + n ∧ bitmap_get img bbm j = 0 := by
      by_contra hno
      apply h
      intro j h1 h2 h3
      exact hno ⟨j, h1, h2, h3⟩
    classical
    refine ⟨Nat.find hex, (Nat.find_spec hex).1, (Nat.find_spec hex).2.1,
      (Nat.find_spec hex).2.2, ?_, ?_⟩
    · intro j h1 h2 h3
      have hlt : Nat.find hex < ii + n := (Nat.find_spec hex).2.1
      exact Nat.find_min hex h2 ⟨h1, by omega, h3⟩
    · apply alloc_block_loop_some img bbm n ii _ (Nat.find_spec hex).1 (Nat.find_spec hex).2.1
        (Nat.find_spec hex).2.2
      intro j h1 h2 h3
      have hlt : Nat.find hex < ii + n := (Nat.find_spec hex).2.1
      exact Nat.find_min hex h2 ⟨h1, by omega, h3⟩

/-- The two outcomes of `alloc_block`. -/
theorem alloc_block_cases (img : Image) :
    ((∀ j, 5 ≤ j → j < BLOCK_COUNT → bitmap_get img get_blocks_bitmap j ≠ 0) ∧
        alloc_block img = (-1, img)) ∨
      (∃ k, 5 ≤ k ∧ k < BLOCK_COUNT ∧ bitmap_get img get_blocks_bitmap k = 0 ∧
        (∀ j, 5 ≤ j → j < k → bitmap_get img get_blocks_bitmap j ≠ 0) ∧
        alloc_block img = ((k : Int), bitmap_put img get_blocks_bitmap k 1)) := by
  have h := alloc_block_loop_cases img get_blocks_bitmap (BLOCK_COUNT - 5) 5
  have e : 5 + (BLOCK_COUNT - 5) = BLOCK_COUNT := by decide
  rw [e] at h
  exact h

theorem blocks_bitmap_byte_lt (img : Image) (k : Nat)
    (hlen : BLOCK_BITMAP_SIZE ≤ img.length) (hk : k < BLOCK_COUNT) :
    get_blocks_bitmap + byte_index k < img.length := by
  have h1 : BLOCK_BITMAP_SIZE = 32 := by decide
  have h2 : BLOCK_COUNT = 256 := by decide
  have h3 : get_blocks_bitmap = 0 := by decide
  unfold byte_index
  omega

/-! ## Bitmap round-trip and lowest-free-first allocation -/

/-- C1. Bitmap round-trip: for a bitmap of `len` bytes at offset `bm` of the
image and a bit index `i < 8 * len`, `bitmap_get` after `bitmap_put` with
value `v` returns 1 when `v` is non-zero and 0 when `v` is zero. -/
theorem bitmap_roundtrip (img : Image) (bm len i : Nat) (v : Int)
    (hbm : bm + len ≤ img.length) (hi : i < 8 * len) :
    bitmap_get (bitmap_put img bm i v) bm i = if v ≠ 0 then 1 else 0 := by
  apply bitmap_get_put_same
  unfold byte_index
  omega

theorem bitmap_roundtrip_witness :
    (0 + 2 ≤ [0, 255].length ∧ 11 < 8 * 2) ∧
      bitmap_get (bitmap_put [0, 255] 0 11 0) 0 11 = (if (0 : Int) ≠ 0 then 1 else 0) :=
  ⟨by decide, bitmap_roundtrip [0, 255] 0 2 11 0 (by decide) (by decide)⟩

/-- C2. Lowest-free-first allocation: for every image that holds the block
bitmap, if `ii` is the smallest index in `[5, BLOCK_COUNT)` whose bit is clear
then `alloc_block` returns `ii`, afterwards bit `ii` is set and every other bit
of the bitmap (and every byte of the image but the one holding bit `ii`) is
unchanged; if no bit in `[5, BLOCK_COUNT)` is clear it returns `-1` and leaves
the image unchanged. -/
theorem alloc_block_lowest_free (img : Image) (hlen : BLOCK_BITMAP_SIZE ≤ img.length) :
    (∀ ii : Nat, 5 ≤ ii → ii < BLOCK_COUNT → bitmap_get img get_blocks_bitmap ii = 0 →
        (∀ j, 5 ≤ j → j < ii → bitmap_get img get_blocks_bitmap j ≠ 0) →
        (alloc_block img).1 = (ii : Int) ∧
        bitmap_get (alloc_block img).2 get_blocks_bitmap ii = 1 ∧
        (∀ j, j ≠ ii → bitmap_get (alloc_block img).2 get_blocks_bitmap j
          = bitmap_get img get_blocks_bitmap j) ∧
        (∀ q, q ≠ get_blocks_bitmap + byte_index ii → (alloc_block img).2[q]? = img[q]?)) ∧
    ((∀ ii : Nat, 5 ≤ ii → ii < BLOCK_COUNT → bitmap_get img get_blocks_bitmap ii ≠ 0) →
        alloc_block img = (-1, img)) := by
  constructor
  · intro ii h5 hlt hclear hlow
    have hrun : alloc_block img = ((ii : Int), bitmap_put img get_blocks_bitmap ii 1) := by
      unfold alloc_block
      exact alloc_block_loop_some img get_blocks_bitmap (BLOCK_COUNT - 5) 5 ii h5
        (by have e : 5 + (BLOCK_COUNT - 5) = BLOCK_COUNT := by decide
            omega) hclear hlow
    rw [hrun]
    refine ⟨rfl, ?_, ?_, ?_⟩
    · have h := bitmap_get_put_same img get_blocks_bitmap ii 1
        (blocks_bitmap_byte_lt img ii hlen hlt)
      simpa using h
    · intro j hj
      exact bitmap_get_put_other img get_blocks_bitmap ii j 1 hj
    · intro q hq
      exact getElem?_bitmap_put_other img get_blocks_bitmap ii q 1 hq
  · intro h
    unfold alloc_block
    exact alloc_block_loop_none img get_blocks_bitmap (BLOCK_COUNT - 5) 5
      (fun j h1 h2 => h j h1 (by have e : 5 + (BLOCK_COUNT - 5) = BLOCK_COUNT := by decide
                                 omega))

theorem alloc_block_lowest_free_witness :
    BLOCK_BITMAP_SIZE ≤ (255 :: 5 :: List.replicate 30 0).length ∧
      (alloc_block (255 :: 5 :: List.replicate 30 0)).1 = ((9 : Nat) : Int) ∧
      bitmap_get (alloc_block (255 :: 5 :: List.replicate 30 0)).2 get_blocks_bitmap 9 = 1 :=
  ⟨by decide,
    ((alloc_block_lowest_free (255 :: 5 :: List.replicate 30 0) (by decide)).1 9
      (by decide) (by decide) (by decide)
      (by intro j h1 h2; interval_cases j <;> decide)).1,
    ((alloc_block_lowest_free (255 :: 5 :: List.replicate 30 0) (by decide)).1 9
      (by decide) (by decide) (by decide)
      (by intro j h1 h2; interval_cases j <;> decide)).2.1⟩

/-! ## Sequences of allocations -/

theorem length_alloc_block (img : Image) : (alloc_block img).2.length = img.length := by
  rcases alloc_block_cases img with ⟨_, h⟩ | ⟨k, _, _, _, _, h⟩
  · rw [h]
  · rw [h]; exact length_bitmap_put img get_blocks_bitmap k 1

theorem length_alloc_state (img : Image) (n : Nat) : (alloc_state img n).length = img.length := by
  induction n with
  | zero => rfl
  | succ n ih => rw [alloc_state, length_alloc_block, ih]

/-- A call of `alloc_block` clears no bit. -/
theorem alloc_block_keeps_set (img : Image) (j : Nat)
    (h : bitmap_get img get_blocks_bitmap j = 1) :
    bitmap_get (alloc_block img).2 get_blocks_bitmap j = 1 := by
  rcases alloc_block_cases img with ⟨_, e⟩ | ⟨k, _, _, hk, _, e⟩
  · rw [e]; exact h
  · rw [e]
    have hne : j ≠ k := by
      intro c
      rw [c, hk] at h
      exact absurd h (by decide)
    show bitmap_get (bitmap_put img get_blocks_bitmap k 1) get_blocks_bitmap j = 1
    rw [bitmap_get_put_other _ _ _ _ _ hne]
    exact h

theorem alloc_state_keeps_set (img : Image) (j m : Nat) :
    ∀ d, bitmap_get (alloc_state img m) get_blocks_bitmap j = 1 →
      bitmap_get (alloc_state img (m + d)) get_blocks_bitmap j = 1 := by
  intro d
  induction d with
  | zero => intro h; exact h
  | succ d ih =>
    intro h
    show bitmap_get (alloc_block (alloc_state img (m + d))).2 get_blocks_bitmap j = 1
    exact alloc_block_keeps_set _ _ (ih h)

/-- A successful call returns an index of `[5, BLOCK_COUNT)` whose bit was
clear before the call and is set after it. -/
theorem alloc_result_success (img : Image) (hlen : BLOCK_BITMAP_SIZE ≤ img.length) (n : Nat)
    (hn : alloc_result img n ≠ -1) :
    ∃ ii : Nat, alloc_result img n = (ii : Int) ∧ 5 ≤ ii ∧ ii < BLOCK_COUNT ∧
      bitmap_get (alloc_state img n) get_blocks_bitmap ii = 0 ∧
      bitmap_get (alloc_state img (n + 1)) get_blocks_bitmap ii = 1 := by
  unfold alloc_result at hn ⊢
  rcases alloc_block_cases (alloc_state img n) with ⟨_, e⟩ | ⟨k, h5, hlt, hk, _, e⟩
  · rw [e] at hn
    exact absurd rfl hn
  · refine ⟨k, by rw [e], h5, hlt, hk, ?_⟩
    show bitmap_get (alloc_block (alloc_state img n)).2 get_blocks_bitmap k = 1
    rw [e]
    have hl : BLOCK_BITMAP_SIZE ≤ (alloc_state img n).length := by
      rw [length_alloc_state]; exact hlen
    have h := bitmap_get_put_same (alloc_state img n) get_blocks_bitmap k 1
      (blocks_bitmap_byte_lt _ k hl hlt)
    simpa using h

/-- C3. Allocation exclusivity: in a sequence of successive `alloc_block`
calls on an image that holds the block bitmap, a successful call (number `n`)
returns an index of `[5, BLOCK_COUNT)`, so outside the reserved region 0..4,
whose bit was clear in the bitmap before the call, and that differs from the
value returned by every earlier call. -/
theorem alloc_block_exclusive (img : Image) (hlen : BLOCK_BITMAP_SIZE ≤ img.length) (n : Nat)
    (hn : alloc_result img n ≠ -1) :
    (∃ ii : Nat, alloc_result img n = (ii : Int) ∧ 5 ≤ ii ∧ ii < BLOCK_COUNT ∧
      bitmap_get (alloc_state img n) get_blocks_bitmap ii = 0) ∧
    ∀ m, m < n → alloc_result img m ≠ alloc_result img n := by
  obtain ⟨ii, hr, h5, hlt, hclear, _⟩ := alloc_result_success img hlen n hn
  refine ⟨⟨ii, hr, h5, hlt, hclear⟩, ?_⟩
  intro m hm heq
  have hm1 : alloc_result img m ≠ -1 := by rw [heq]; exact hn
  obtain ⟨k, hrk, _, _, _, hset⟩ := alloc_result_success img hlen m hm1
  have hk : k = ii := by
    have : (k : Int) = (ii : Int) := by rw [← hrk, ← hr, heq]
    exact_mod_cast this
  rw [hk] at hset
  have hstay := alloc_state_keeps_set img ii (m + 1) (n - (m + 1)) hset
  have e : m + 1 + (n - (m + 1)) = n := by omega
  rw [e, hclear] at hstay
  exact absurd hstay (by decide)

theorem alloc_block_exclusive_witness :
    (BLOCK_BITMAP_SIZE ≤ (255 :: 5 :: List.replicate 30 0).length ∧
      alloc_result (255 :: 5 :: List.replicate 30 0) 2 ≠ -1) ∧
    ((∃ ii : Nat, alloc_result (255 :: 5 :: List.replicate 30 0) 2 = (ii : Int) ∧ 5 ≤ ii ∧
        ii < BLOCK_COUNT ∧
        bitmap_get (alloc_state (255 :: 5 :: List.replicate 30 0) 2) get_blocks_bitmap ii = 0) ∧
      ∀ m, m < 2 → alloc_result (255 :: 5 :: List.replicate 30 0) m
        ≠ alloc_result (255 :: 5 :: List.replicate 30 0) 2) :=
  ⟨⟨by decide, by decide⟩,
    alloc_block_exclusive (255 :: 5 :: List.replicate 30 0) (by decide) 2 (by decide)⟩

/-! ## Image initialisation -/

theorem length_ftruncate (file : List Nat) (n : Nat) : (ftruncate file n).length = n := by
  unfold ftruncate
  rw [List.length_append, List.length_take, List.length_replicate]
  omega

theorem load_ftruncate_nil (n p : Nat) : load (ftruncate [] n) p = 0 := by
  unfold load ftruncate
  rw [List.getD_eq_getElem?_getD]
  simp only [List.take_nil, List.nil_append, List.length_nil, Nat.sub_zero,
    List.getElem?_replicate]
  split <;> rfl

theorem range_five : List.range 5 = [0, 1, 2, 3, 4] := by decide

theorem blocks_init_eq (file : List Nat) :
    blocks_init file =
      bitmap_put (bitmap_put (bitmap_put (bitmap_put (bitmap_put (ftruncate file NUFS_SIZE)
        get_blocks_bitmap 0 1) get_blocks_bitmap 1 1) get_blocks_bitmap 2 1)
        get_blocks_bitmap 3 1) get_blocks_bitmap 4 1 := by
  unfold blocks_init
  simp only [range_five, List.foldl_cons, List.foldl_nil]

theorem length_blocks_init (file : List Nat) : (blocks_init file).length = NUFS_SIZE := by
  rw [blocks_init_eq]
  simp only [length_bitmap_put, length_ftruncate]

/-- After `blocks_init` the bits 0..4 of the block bitmap are set. -/
theorem blocks_init_reserved (file : List Nat) (j : Nat) (hj : j < 5) :
    bitmap_get (blocks_init file) get_blocks_bitmap j = 1 := by
  have hlen : ∀ img : Image, img.length = NUFS_SIZE → ∀ i, i < 5 →
      get_blocks_bitmap + byte_index i < img.length := by
    intro img h i hi
    rw [h]
    have h1 : NUFS_SIZE = 1048576 := by decide
    have h3 : get_blocks_bitmap = 0 := by decide
    unfold byte_index
    omega
  have hput : ∀ img : Image, img.length = NUFS_SIZE → ∀ i, i < 5 →
      bitmap_get (bitmap_put img get_blocks_bitmap i 1) get_blocks_bitmap i = 1 := by
    intro img h i hi
    have := bitmap_get_put_same img get_blocks_bitmap i 1 (hlen img h i hi)
    simpa using this
  have hkeep : ∀ (img : Image) (i k : Nat), bitmap_get img get_blocks_bitmap k = 1 →
      bitmap_get (bitmap_put img get_blocks_bitmap i 1) get_blocks_bitmap k = 1 := by
    intro img i k h
    by_cases e : k = i
    · by_cases hl : get_blocks_bitmap + byte_index i < img.length
      · have := bitmap_get_put_same img get_blocks_bitmap i 1 hl
        rw [e]
        simpa using this
      · have hle : img.length ≤ get_blocks_bitmap + byte_index i := Nat.le_of_not_lt hl
        have : bitmap_put img get_blocks_bitmap i 1 = img := by
          unfold bitmap_put
          simp only [ne_eq, one_ne_zero, not_false_eq_true, if_true]
          exact store_eq_self_of_length_le _ _ _ hle
        rw [this]; exact h
    · rw [bitmap_get_put_other _ _ _ _ _ e]; exact h
  rw [blocks_init_eq]
  have l0 := length_ftruncate file NUFS_SIZE
  have l1 : (bitmap_put (ftruncate file NUFS_SIZE) get_blocks_bitmap 0 1).length = NUFS_SIZE := by
    rw [length_bitmap_put, l0]
  have l2 : (bitmap_put (bitmap_put (ftruncate file NUFS_SIZE) get_blocks_bitmap 0 1)
      get_blocks_bitmap 1 1).length = NUFS_SIZE := by rw [length_bitmap_put, l1]
  have l3 : (bitmap_put (bitmap_put (bitmap_put (ftruncate file NUFS_SIZE) get_blocks_bitmap 0 1)
      get_blocks_bitmap 1 1) get_blocks_bitmap 2 1).length = NUFS_SIZE := by
    rw [length_bitmap_put, l2]
  have l4 : (bitmap_put (bitmap_put (bitmap_put (bitmap_put (ftruncate file NUFS_SIZE)
      get_blocks_bitmap 0 1) get_blocks_bitmap 1 1) get_blocks_bitmap 2 1)
      get_blocks_bitmap 3 1).length = NUFS_SIZE := by rw [length_bitmap_put, l3]
  interval_cases j
  · exact hkeep _ _ _ (hkeep _ _ _ (hkeep _ _ _ (hkeep _ _ _ (hput _ l0 0 (by decide)))))
  · exact hkeep _ _ _ (hkeep _ _ _ (hkeep _ _ _ (hput _ l1 1 (by decide))))
  · exact hkeep _ _ _ (hkeep _ _ _ (hput _ l2 2 (by decide)))
  · exact hkeep _ _ _ (hput _ l3 3 (by decide))
  · exact hput _ l4 4 (by decide)

/-- The bits from 5 on are those of the resized file. -/
theorem blocks_init_other_bits (file : List Nat) (j : Nat) (hj : 5 ≤ j) :
    bitmap_get (blocks_init file) get_blocks_bitmap j
      = bitmap_get (ftruncate file NUFS_SIZE) get_blocks_bitmap j := by
  rw [blocks_init_eq]
  rw [bitmap_get_put_other _ _ _ _ _ (by omega), bitmap_get_put_other _ _ _ _ _ (by omega),
    bitmap_get_put_other _ _ _ _ _ (by omega), bitmap_get_put_other _ _ _ _ _ (by omega),
    bitmap_get_put_other _ _ _ _ _ (by omega)]

/-- The bytes from 1 on are those of the resized file. -/
theorem blocks_init_other_bytes (file : List Nat) (q : Nat) (hq : q ≠ 0) :
    (blocks_init file)[q]? = (ftruncate file NUFS_SIZE)[q]? := by
  have h3 : get_blocks_bitmap = 0 := by decide
  have hb : ∀ i, i < 5 → q ≠ get_blocks_bitmap + byte_index i := by
    intro i hi
    unfold byte_index
    omega
  rw [blocks_init_eq]
  rw [getElem?_bitmap_put_other _ _ _ _ _ (hb 4 (by decide)),
    getElem?_bitmap_put_other _ _ _ _ _ (hb 3 (by decide)),
    getElem?_bitmap_put_other _ _ _ _ _ (hb 2 (by decide)),
    getElem?_bitmap_put_other _ _ _ _ _ (hb 1 (by decide)),
    getElem?_bitmap_put_other _ _ _ _ _ (hb 0 (by decide))]

theorem alloc_block_some (img : Image) (k : Nat) (h5 : 5 ≤ k) (hlt : k < BLOCK_COUNT)
    (hk : bitmap_get img get_blocks_bitmap k = 0)
    (hlow : ∀ j, 5 ≤ j → j < k → bitmap_get img get_blocks_bitmap j ≠ 0) :
    alloc_block img = ((k : Int), bitmap_put img get_blocks_bitmap k 1) := by
  have e : 5 + (BLOCK_COUNT - 5) = BLOCK_COUNT := by decide
  unfold alloc_block
  exact alloc_block_loop_some img get_blocks_bitmap (BLOCK_COUNT - 5) 5 k h5 (by omega) hk hlow

theorem alloc_block_none (img : Image)
    (h : ∀ j, 5 ≤ j → j < BLOCK_COUNT → bitmap_get img get_blocks_bitmap j ≠ 0) :
    alloc_block img = (-1, img) := by
  have e : 5 + (BLOCK_COUNT - 5) = BLOCK_COUNT := by decide
  unfold alloc_block
  exact alloc_block_loop_none img get_blocks_bitmap (BLOCK_COUNT - 5) 5
    (fun j h1 h2 => h j h1 (by omega))

theorem alloc_state_add (img : Image) (m : Nat) :
    ∀ d, alloc_state img (m + d) = alloc_state (alloc_state img m) d := by
  intro d
  induction d with
  | zero => rfl
  | succ d ih =>
    show (alloc_block (alloc_state img (m + d))).2 = (alloc_block (alloc_state _ d)).2
    rw [ih]

/-- Once a call fails, the image no longer changes. -/
theorem alloc_state_of_full (img : Image) (h : alloc_block img = (-1, img)) :
    ∀ d, alloc_state img d = img := by
  intro d
  induction d with
  | zero => rfl
  | succ d ih =>
    show (alloc_block (alloc_state img d)).2 = img
    rw [ih, h]

theorem bitmap_get_fresh (bm j : Nat) : bitmap_get (ftruncate [] NUFS_SIZE) bm j = 0 := by
  unfold bitmap_get
  rw [load_ftruncate_nil]
  simp

/-- The block bitmap after `n` allocations on a fresh image: exactly the bits
below `5 + n` are set, and call number `n` returned `5 + n`. -/
theorem fresh_alloc_state (n : Nat) (hn : n ≤ BLOCK_COUNT - 5) :
    ∀ j, j < BLOCK_COUNT →
      bitmap_get (alloc_state (blocks_init []) n) get_blocks_bitmap j
        = if j < 5 + n then 1 else 0 := by
  have hc : BLOCK_COUNT = 256 := by decide
  induction n with
  | zero =>
    intro j _
    show bitmap_get (blocks_init []) get_blocks_bitmap j = _
    by_cases hj : j < 5
    · rw [blocks_init_reserved [] j hj, if_pos (by omega)]
    · rw [blocks_init_other_bits [] j (by omega), bitmap_get_fresh, if_neg (by omega)]
  | succ n ih =>
    have ih := ih (by omega)
    intro j hj
    have hrun : alloc_block (alloc_state (blocks_init []) n)
        = (((5 + n : Nat) : Int),
            bitmap_put (alloc_state (blocks_init []) n) get_blocks_bitmap (5 + n) 1) := by
      apply alloc_block_some _ (5 + n) (by omega) (by omega)
      · rw [ih (5 + n) (by omega), if_neg (by omega)]
      · intro i h1 h2
        rw [ih i (by omega), if_pos h2]
        decide
    show bitmap_get (alloc_block (alloc_state (blocks_init []) n)).2 get_blocks_bitmap j = _
    rw [hrun]
    show bitmap_get (bitmap_put (alloc_state (blocks_init []) n) get_blocks_bitmap (5 + n) 1)
      get_blocks_bitmap j = _
    by_cases e : j = 5 + n
    · rw [e, if_pos (by omega)]
      have hl : BLOCK_BITMAP_SIZE ≤ (alloc_state (blocks_init []) n).length := by
        rw [length_alloc_state, length_blocks_init]; decide
      have := bitmap_get_put_same (alloc_state (blocks_init []) n) get_blocks_bitmap (5 + n) 1
        (blocks_bitmap_byte_lt _ (5 + n) hl (by omega))
      simpa using this
    · rw [bitmap_get_put_other _ _ _ _ _ e, ih j hj]
      by_cases h1 : j < 5 + n
      · rw [if_pos h1, if_pos (by omega)]
      · rw [if_neg h1, if_neg (by omega)]

/-- C4. Exhaustion count: on the image that `blocks_init` produces from a
newly created (empty, hence zero-filled) file, the first
`BLOCK_COUNT - 5 = 251` calls of `alloc_block` return 5, 6, ..., 255 in that
order, and call number 252 and every later one return `-1`. -/
theorem alloc_block_exhaustion :
    BLOCK_COUNT - 5 = 251 ∧
    (∀ n, n < BLOCK_COUNT - 5 → alloc_result (blocks_init []) n = ((5 + n : Nat) : Int)) ∧
    (∀ n, BLOCK_COUNT - 5 ≤ n → alloc_result (blocks_init []) n = -1) := by
  have hc : BLOCK_COUNT = 256 := by decide
  refine ⟨by decide, ?_, ?_⟩
  · intro n hn
    have hbits := fresh_alloc_state n (by omega)
    unfold alloc_result
    rw [alloc_block_some _ (5 + n) (by omega) (by omega)
      (by rw [hbits (5 + n) (by omega), if_neg (by omega)])
      (by intro i h1 h2
          rw [hbits i (by omega), if_pos h2]
          decide)]
  · intro n hn
    have hbits := fresh_alloc_state (BLOCK_COUNT - 5) (Nat.le_refl _)
    have hfull : alloc_block (alloc_state (blocks_init []) (BLOCK_COUNT - 5))
        = (-1, alloc_state (blocks_init []) (BLOCK_COUNT - 5)) := by
      apply alloc_block_none
      intro j h1 h2
      rw [hbits j h2, if_pos (by omega)]
      decide
    have hst : alloc_state (blocks_init []) n = alloc_state (blocks_init []) (BLOCK_COUNT - 5) := by
      have e : n = (BLOCK_COUNT - 5) + (n - (BLOCK_COUNT - 5)) := by omega
      rw [e, alloc_state_add, alloc_state_of_full _ hfull]
    unfold alloc_result
    rw [hst, hfull]

/-! ## Writes that change nothing -/

theorem store_eq_self (img : Image) (p b : Nat) (h : b % 256 = load img p) :
    store img p b = img := by
  apply List.ext_getElem?
  intro q
  unfold store
  rw [List.getElem?_set]
  by_cases e : p = q
  · subst e
    by_cases hl : p < img.length
    · rw [if_pos rfl, if_pos hl, h]
      unfold load
      rw [List.getD_eq_getElem _ _ hl]
      exact (List.getElem?_eq_getElem hl).symm
    · rw [if_pos rfl, if_neg hl]
      exact (List.getElem?_eq_none (Nat.le_of_not_lt hl)).symm
  · rw [if_neg e]

/-- Writing to a bit the value it already has leaves the image identical. -/
theorem bitmap_put_eq_self (img : Image) (bm i : Nat) (v : Int)
    (hbyte : load img (bm + byte_index i) < 256)
    (h : bitmap_get img bm i = if v ≠ 0 then 1 else 0) :
    bitmap_put img bm i v = img := by
  have hhigh : ∀ j, 8 ≤ j → (load img (bm + byte_index i)).testBit j = false := by
    intro j hj
    apply Nat.testBit_lt_two_pow
    calc load img (bm + byte_index i) < 2 ^ 8 := hbyte
      _ ≤ 2 ^ j := Nat.pow_le_pow_right (by norm_num) hj
  unfold bitmap_get at h
  rw [shift_and_one] at h
  unfold bitmap_put
  by_cases hv : v ≠ 0
  · rw [if_pos hv] at h
    have hbit : (load img (bm + byte_index i)).testBit (bit_index i) = true := by
      by_contra c
      rw [if_neg c] at h
      exact absurd h (by decide)
    rw [if_pos hv]
    apply store_eq_self
    apply Nat.eq_of_testBit_eq
    intro j
    rw [testBit_set_byte]
    by_cases hj : j < 8
    · by_cases e : bit_index i = j
      · rw [← e, hbit]; simp [bit_index_lt i]
      · simp [hj, e]
    · rw [hhigh j (by omega)]; simp [hj]
  · rw [if_neg hv] at h
    have hbit : (load img (bm + byte_index i)).testBit (bit_index i) = false := by
      by_contra c
      rw [if_pos (by simpa using c)] at h
      exact absurd h (by decide)
    rw [if_neg hv]
    apply store_eq_self
    apply Nat.eq_of_testBit_eq
    intro j
    rw [testBit_clear_byte _ _ _ (bit_index_lt i)]
    by_cases hj : j < 8
    · by_cases e : bit_index i = j
      · rw [← e, hbit]; simp
      · simp [hj, e]
    · rw [hhigh j (by omega)]; simp

theorem load_bitmap_put_lt (img : Image) (bm i : Nat) (v : Int) (q : Nat)
    (h : load img q < 256) : load (bitmap_put img bm i v) q < 256 := by
  by_cases e : q = bm + byte_index i
  · by_cases hl : q < img.length
    · unfold bitmap_put
      by_cases hv : v ≠ 0
      · rw [if_pos hv, e, load_store_same _ _ _ (e ▸ hl)]
        exact Nat.mod_lt _ (by norm_num)
      · rw [if_neg hv, e, load_store_same _ _ _ (e ▸ hl)]
        exact Nat.mod_lt _ (by norm_num)
    · have hle : img.length ≤ bm + byte_index i := by omega
      have : bitmap_put img bm i v = img := by
        unfold bitmap_put
        by_cases hv : v ≠ 0
        · simp only [if_pos hv]; exact store_eq_self_of_length_le _ _ _ hle
        · simp only [if_neg hv]; exact store_eq_self_of_length_le _ _ _ hle
      rw [this]; exact h
  · rw [load_bitmap_put_other _ _ _ _ _ e]; exact h

/-- C5. Release clears and is idempotent: for every image of bytes that holds
the block bitmap and every block index `bnum < BLOCK_COUNT`, after
`free_block(bnum)` bit `bnum` reads 0, all other bits of the bitmap and all
bytes but the one holding bit `bnum` are unchanged; on an image where bit
`bnum` is already 0 the call leaves the image identical; and two successive
calls give the same image as one. -/
theorem free_block_clears_idempotent (img : Image) (bnum : Nat)
    (hlen : BLOCK_BITMAP_SIZE ≤ img.length) (hbytes : BytesOk img) (hb : bnum < BLOCK_COUNT) :
    bitmap_get (free_block img bnum) get_blocks_bitmap bnum = 0 ∧
    (∀ j, j ≠ bnum → bitmap_get (free_block img bnum) get_blocks_bitmap j
      = bitmap_get img get_blocks_bitmap j) ∧
    (∀ q, q ≠ get_blocks_bitmap + byte_index bnum → (free_block img bnum)[q]? = img[q]?) ∧
    (bitmap_get img get_blocks_bitmap bnum = 0 → free_block img bnum = img) ∧
    free_block (free_block img bnum) bnum = free_block img bnum := by
  have hclear : bitmap_get (free_block img bnum) get_blocks_bitmap bnum = 0 := by
    have := bitmap_get_put_same img get_blocks_bitmap bnum 0
      (blocks_bitmap_byte_lt img bnum hlen hb)
    simpa [free_block] using this
  refine ⟨hclear, ?_, ?_, ?_, ?_⟩
  · intro j hj
    exact bitmap_get_put_other img get_blocks_bitmap bnum j 0 hj
  · intro q hq
    exact getElem?_bitmap_put_other img get_blocks_bitmap bnum q 0 hq
  · intro h0
    apply bitmap_put_eq_self _ _ _ _ (load_lt_of_bytesOk img hbytes _)
    rw [h0]; rfl
  · apply bitmap_put_eq_self
    · exact load_bitmap_put_lt _ _ _ _ _ (load_lt_of_bytesOk img hbytes _)
    · rw [hclear]
      rfl

theorem free_block_clears_idempotent_witness :
    (BLOCK_BITMAP_SIZE ≤ (255 :: 5 :: List.replicate 30 0).length ∧
      BytesOk (255 :: 5 :: List.replicate 30 0) ∧ 8 < BLOCK_COUNT) ∧
    bitmap_get (free_block (255 :: 5 :: List.replicate 30 0) 8) get_blocks_bitmap 8 = 0 ∧
    free_block (free_block (255 :: 5 :: List.replicate 30 0) 8) 8
      = free_block (255 :: 5 :: List.replicate 30 0) 8 :=
  ⟨⟨by decide, by unfold BytesOk; decide, by decide⟩,
    (free_block_clears_idempotent (255 :: 5 :: List.replicate 30 0) 8 (by decide)
      (by unfold BytesOk; decide) (by decide)).1,
    (free_block_clears_idempotent (255 :: 5 :: List.replicate 30 0) 8 (by decide)
      (by unfold BytesOk; decide) (by decide)).2.2.2.2⟩

/-! ## The reserved bits -/

theorem ftruncate_eq_self (file : List Nat) : ftruncate file file.length = file := by
  unfold ftruncate
  simp

/-- Opening an image whose reserved bits are set already changes nothing. -/
theorem blocks_init_eq_self (file : List Nat) (hlen : file.length = NUFS_SIZE)
    (hbytes : BytesOk file) (hres : ∀ i, i < 5 → bitmap_get file get_blocks_bitmap i = 1) :
    blocks_init file = file := by
  have hput : ∀ i, i < 5 → bitmap_put file get_blocks_bitmap i 1 = file := by
    intro i hi
    apply bitmap_put_eq_self _ _ _ _ (load_lt_of_bytesOk file hbytes _)
    rw [hres i hi]; rfl
  have hf : ftruncate file NUFS_SIZE = file := by
    rw [← hlen]; exact ftruncate_eq_self file
  rw [blocks_init_eq, hf, hput 0 (by decide), hput 1 (by decide), hput 2 (by decide),
    hput 3 (by decide), hput 4 (by decide)]

/-- One call keeps the reserved bits, when a release is on an index from 5. -/
theorem run_op_reserved (img : Image) (op : BlockOp)
    (hop : ∀ b, op = BlockOp.free b → 5 ≤ b)
    (hres : ∀ i, i < 5 → bitmap_get img get_blocks_bitmap i = 1) :
    ∀ i, i < 5 → bitmap_get (run_op img op) get_blocks_bitmap i = 1 := by
  intro i hi
  cases op with
  | alloc => exact alloc_block_keeps_set img i (hres i hi)
  | free b =>
    have hb : 5 ≤ b := hop b rfl
    show bitmap_get (bitmap_put img get_blocks_bitmap b 0) get_blocks_bitmap i = 1
    rw [bitmap_get_put_other _ _ _ _ _ (by omega)]
    exact hres i hi

theorem run_ops_reserved (ops : List BlockOp) :
    ∀ (img : Image), (∀ b, BlockOp.free b ∈ ops → 5 ≤ b) →
      (∀ i, i < 5 → bitmap_get img get_blocks_bitmap i = 1) →
      ∀ i, i < 5 → bitmap_get (run_ops img ops) get_blocks_bitmap i = 1 := by
  induction ops with
  | nil => intro img _ hres; exact hres
  | cons op ops ih =>
    intro img hops hres
    show ∀ i, i < 5 → bitmap_get (run_ops (run_op img op) ops) get_blocks_bitmap i = 1
    apply ih
    · intro b hb
      exact hops b (List.mem_cons_of_mem _ hb)
    · apply run_op_reserved img op _ hres
      intro b e
      exact hops b (e ▸ List.mem_cons_self _ _)

/-- C6. Reserved bits are permanently 1: after `blocks_init` on any file
contents the bits 0..4 of the block bitmap are 1, the image has `NUFS_SIZE`
bytes, every byte but byte 0 and every bit of the bitmap from 5 on is that of
the resized file, and an image of bytes whose bits 0..4 are set already is
left identical; from the image after `blocks_init`, every sequence of
`alloc_block` calls and of `free_block` calls on indices from 5 keeps the bits
0..4 equal to 1. -/
theorem reserved_bits_permanent (file : List Nat) :
    (∀ i, i < 5 → bitmap_get (blocks_init file) get_blocks_bitmap i = 1) ∧
    (blocks_init file).length = NUFS_SIZE ∧
    (∀ q, q ≠ 0 → (blocks_init file)[q]? = (ftruncate file NUFS_SIZE)[q]?) ∧
    (∀ j, 5 ≤ j → bitmap_get (blocks_init file) get_blocks_bitmap j
      = bitmap_get (ftruncate file NUFS_SIZE) get_blocks_bitmap j) ∧
    (file.length = NUFS_SIZE → ftruncate file NUFS_SIZE = file) ∧
    (file.length = NUFS_SIZE → BytesOk file →
      (∀ i, i < 5 → bitmap_get file get_blocks_bitmap i = 1) → blocks_init file = file) ∧
    (∀ ops : List BlockOp, (∀ b, BlockOp.free b ∈ ops → 5 ≤ b) →
      ∀ i, i < 5 → bitmap_get (run_ops (blocks_init file) ops) get_blocks_bitmap i = 1) := by
  refine ⟨blocks_init_reserved file, length_blocks_init file, blocks_init_other_bytes file,
    blocks_init_other_bits file, ?_, blocks_init_eq_self file, ?_⟩
  · intro h
    rw [← h]; exact ftruncate_eq_self file
  · intro ops hops
    exact run_ops_reserved ops (blocks_init file) hops (blocks_init_reserved file)

/-! ## Layout of the metadata -/

theorem layout_constants :
    BLOCK_SIZE = 4096 ∧ BLOCK_COUNT = 256 ∧ BLOCK_BITMAP_SIZE = 32 ∧ INODE_BITMAP_SIZE = 32 ∧
      NUM_INODES = 251 ∧ sizeof_inode_t = 8 := by decide

theorem region_disjoint (r s : Region) (hr : r.valid) (hs : s.valid) (hne : r ≠ s) :
    r.start + r.size ≤ s.start ∨ s.start + s.size ≤ r.start := by
  obtain ⟨h1, h2, h3, h4, h5, h6⟩ := layout_constants
  cases r <;> cases s <;>
    simp only [Region.start, Region.size, Region.valid, get_blocks_bitmap, get_inode_bitmap,
      get_inode, directory_get, blocks_get_block, h1, h2, h3, h4, h5, h6, ne_eq,
      Region.inode_record.injEq, Region.dir_slot.injEq, not_true_eq_false] at hr hs hne ⊢ <;>
    omega

theorem region_reserved (r : Region) (hr : r.valid) : r.start + r.size ≤ blocks_get_block 5 := by
  obtain ⟨h1, h2, h3, h4, h5, h6⟩ := layout_constants
  cases r <;>
    simp only [Region.start, Region.size, Region.valid, get_blocks_bitmap, get_inode_bitmap,
      get_inode, directory_get, blocks_get_block, h1, h2, h3, h4, h5, h6] at hr ⊢ <;>
    omega

theorem alloc_block_ge_five (img : Image) (b : Nat) (h : (alloc_block img).1 = (b : Int)) :
    5 ≤ b ∧ b < BLOCK_COUNT := by
  rcases alloc_block_cases img with ⟨_, e⟩ | ⟨k, h5, hlt, _, _, e⟩
  · rw [e] at h
    have : (-1 : Int) = (b : Int) := h
    omega
  · rw [e] at h
    have : (k : Int) = (b : Int) := h
    have hk : k = b := by exact_mod_cast this
    rw [← hk]
    exact ⟨h5, hlt⟩

/-- C7. Metadata layout: the block bitmap is bytes 0..31 and the inode bitmap
bytes 32..63 of the image; the two bitmaps, the inode records `get_inode(inum)`
for `inum < 251` and the directory slots `directory_get(dnum)` for
`dnum < BLOCK_COUNT` occupy pairwise disjoint byte ranges, each of which ends
at or before the start of block 5, so before the start of every block that
`alloc_block` can return. -/
theorem metadata_layout_disjoint :
    (Region.block_bitmap.start = 0 ∧ Region.block_bitmap.size = 32) ∧
    (Region.inode_bitmap.start = 32 ∧ Region.inode_bitmap.size = 32) ∧
    NUM_INODES = 251 ∧
    (∀ r s : Region, r.valid → s.valid → r ≠ s →
      r.start + r.size ≤ s.start ∨ s.start + s.size ≤ r.start) ∧
    (∀ r : Region, r.valid → r.start + r.size ≤ blocks_get_block 5) ∧
    (∀ (r : Region) (img : Image) (b : Nat), r.valid → (alloc_block img).1 = (b : Int) →
      r.start + r.size ≤ blocks_get_block b) := by
  refine ⟨by decide, by decide, by decide, region_disjoint, region_reserved, ?_⟩
  intro r img b hr hb
  have h5 := (alloc_block_ge_five img b hb).1
  have hres := region_reserved r hr
  have : blocks_get_block 5 ≤ blocks_get_block b := by
    unfold blocks_get_block
    exact Nat.mul_le_mul_left _ h5
  omega

/-- C8 as stated fails: slot 64 of the directory starts at byte
`2 * BLOCK_SIZE`, the first byte of block 2. -/
theorem directory_slot_64_outside_block_one :
    64 < BLOCK_COUNT ∧
      ¬ (BLOCK_SIZE ≤ directory_get 64 ∧ directory_get 64 + 64 ≤ 2 * BLOCK_SIZE) := by
  decide

/-- C8, amended. The directory table starts at block 1 and spans the blocks
1..4: for every slot index `dnum < BLOCK_COUNT` the 64-byte slot
`directory_get(dnum)` lies entirely within block `1 + dnum / 64`, hence within
the image bytes `[BLOCK_SIZE, 5 * BLOCK_SIZE)`, and it lies within block 1
exactly when `dnum < 64`. -/
theorem directory_slot_block (dnum : Nat) (h : dnum < BLOCK_COUNT) :
    (blocks_get_block (1 + dnum / 64) ≤ directory_get dnum ∧
      directory_get dnum + 64 ≤ blocks_get_block (1 + dnum / 64) + BLOCK_SIZE) ∧
    (1 ≤ 1 + dnum / 64 ∧ 1 + dnum / 64 ≤ 4) ∧
    (BLOCK_SIZE ≤ directory_get dnum ∧ directory_get dnum + 64 ≤ 5 * BLOCK_SIZE) ∧
    ((BLOCK_SIZE ≤ directory_get dnum ∧ directory_get dnum + 64 ≤ 2 * BLOCK_SIZE)
      ↔ dnum < 64) := by
  obtain ⟨h1, h2, _, _, _, _⟩ := layout_constants
  simp only [directory_get, blocks_get_block, h1, h2] at h ⊢
  omega

theorem directory_slot_block_witness :
    100 < BLOCK_COUNT ∧
      blocks_get_block (1 + 100 / 64) ≤ directory_get 100 ∧
      directory_get 100 + 64 ≤ blocks_get_block (1 + 100 / 64) + BLOCK_SIZE :=
  ⟨by decide, (directory_slot_block 100 (by decide)).1⟩

/-! ## Directory lookup -/

/-- The comparison `strcmp(name, p) == 0` holds exactly when the string
stored at `p` is `name`, for a name without NUL bytes and a NUL among the `n`
bytes from `p`. -/
theorem strcmp_eq_zero_iff (img : Image) :
    ∀ (name : List Nat) (p n : Nat), (∀ c ∈ name, c ≠ 0) → 0 ∈ read_bytes img p n →
      (strcmp img name p = 0 ↔ (read_bytes img p n).takeWhile (fun b => b != 0) = name) := by
  intro name
  induction name with
  | nil =>
    intro p n _ hnul
    cases n with
    | zero => simp [read_bytes] at hnul
    | succ n =>
      rw [strcmp, read_bytes, List.takeWhile_cons]
      by_cases h0 : load img p = 0
      · simp [h0]
      · simp [h0]
  | cons c cs ih =>
    intro p n hname hnul
    have hc : c ≠ 0 := hname c (List.mem_cons_self _ _)
    cases n with
    | zero => simp [read_bytes] at hnul
    | succ n =>
      rw [strcmp, read_bytes, List.takeWhile_cons]
      by_cases hd : c ≠ load img p
      · rw [if_pos hd]
        have hsub : (c : Int) - (load img p : Int) ≠ 0 := by
          intro e
          apply hd
          have : (c : Int) = (load img p : Int) := by omega
          exact_mod_cast this
        constructor
        · intro e; exact absurd e hsub
        · intro e
          exfalso
          by_cases h0 : load img p = 0
          · simp [h0] at e
          · simp [h0] at e
            exact hd e.1.symm
      · have heq : c = load img p := by
          by_contra x; exact hd x
        rw [if_neg hd, if_neg hc]
        have hl0 : load img p ≠ 0 := heq ▸ hc
        have hnul2 : 0 ∈ read_bytes img (p + 1) n := by
          rw [read_bytes] at hnul
          rcases List.mem_cons.1 hnul with h | h
          · exact absurd h.symm hl0
          · exact h
        rw [ih (p + 1) n (fun x hx => hname x (List.mem_cons_of_mem _ hx)) hnul2]
        simp [hl0, heq]

theorem directory_lookup_loop_none (img : Image) (name : List Nat) :
    ∀ (n i : Nat), (∀ j, i ≤ j → j < i + n → strcmp img name (directory_get j) ≠ 0) →
      directory_lookup_loop img name n i = (-1, img) := by
  intro n
  induction n with
  | zero => intro i _; rfl
  | succ n ih =>
    intro i h
    rw [directory_lookup_loop, if_neg (h i (Nat.le_refl _) (by omega))]
    exact ih (i + 1) (fun j h1 h2 => h j (by omega) (by omega))

theorem directory_lookup_loop_some (img : Image) (name : List Nat) :
    ∀ (n i k : Nat), i ≤ k → k < i + n → strcmp img name (directory_get k) = 0 →
      (∀ j, i ≤ j → j < k → strcmp img name (directory_get j) ≠ 0) →
      directory_lookup_loop img name n i = ((k : Int), img) := by
  intro n
  induction n with
  | zero => intro i k h1 h2; omega
  | succ n ih =>
    intro i k h1 h2 hk hlow
    rw [directory_lookup_loop]
    by_cases hi : strcmp img name (directory_get i) = 0
    · rw [if_pos hi]
      have : k = i := by
        by_contra hne
        exact hlow i (Nat.le_refl _) (by omega) hi
      rw [this]
    · rw [if_neg hi]
      have hne : k ≠ i := fun e => hi (e ▸ hk)
      exact ih (i + 1) k (by omega) (by omega) hk (fun j a b => hlow j (by omega) b)

/-- The two outcomes of `directory_lookup`. -/
theorem directory_lookup_cases (img : Image) (name : List Nat) :
    ((∀ j, j < BLOCK_COUNT → strcmp img name (directory_get j) ≠ 0) ∧
        directory_lookup img name = (-1, img)) ∨
      (∃ k, k < BLOCK_COUNT ∧ strcmp img name (directory_get k) = 0 ∧
        (∀ j, j < k → strcmp img name (directory_get j) ≠ 0) ∧
        directory_lookup img name = ((k : Int), img)) := by
  by_cases h : ∀ j, j < BLOCK_COUNT → strcmp img name (directory_get j) ≠ 0
  · left
    refine ⟨h, ?_⟩
    unfold directory_lookup
    exact directory_lookup_loop_none img name BLOCK_COUNT 0 (fun j _ h2 => h j (by omega))
  · right
    have hex : ∃ j, j < BLOCK_COUNT ∧ strcmp img name (directory_get j) = 0 := by
      by_contra hno
      apply h
      intro j h1 h2
      exact hno ⟨j, h1, h2⟩
    classical
    have hmin : ∀ j, j < Nat.find hex → strcmp img name (directory_get j) ≠ 0 := by
      intro j h1 h2
      have hlt : Nat.find hex < BLOCK_COUNT := (Nat.find_spec hex).1
      exact Nat.find_min hex h1 ⟨by omega, h2⟩
    refine ⟨Nat.find hex, (Nat.find_spec hex).1, (Nat.find_spec hex).2, hmin, ?_⟩
    unfold directory_lookup
    exact directory_lookup_loop_some img name BLOCK_COUNT 0 _ (Nat.zero_le _)
      (by have := (Nat.find_spec hex).1
          omega) (Nat.find_spec hex).2 (fun j _ h2 => hmin j h2)

theorem strcmp_slot_iff (img : Image) (name : List Nat) (d : Nat)
    (hname : ∀ c ∈ name, c ≠ 0) (hterm : 0 ∈ slot_bytes img d) :
    strcmp img name (directory_get d) = 0 ↔ slot_name img d = name :=
  strcmp_eq_zero_iff img name (directory_get d) 64 hname hterm

/-- Every byte of a newly created image but byte 0 is zero. -/
theorem load_fresh (p : Nat) (hp : p ≠ 0) : load (blocks_init []) p = 0 := by
  have h := load_ftruncate_nil NUFS_SIZE p
  unfold load at h ⊢
  rw [List.getD_eq_getElem?_getD] at h ⊢
  rw [blocks_init_other_bytes [] p hp]
  exact h

theorem directory_get_pos (d : Nat) : directory_get d ≠ 0 := by
  have h1 : BLOCK_SIZE = 4096 := by decide
  simp only [directory_get, blocks_get_block, h1]
  omega

theorem fresh_slot_terminated (d : Nat) : 0 ∈ slot_bytes (blocks_init []) d := by
  unfold slot_bytes
  rw [read_bytes, load_fresh _ (directory_get_pos d)]
  exact List.mem_cons_self _ _

/-- C9. Directory lookup: on an image in which each of the `BLOCK_COUNT`
slots has a NUL among its 64 bytes, and for a name given by its bytes (none of
them NUL), `directory_lookup(name)` returns `i` exactly when `i` is the
smallest slot index in `[0, BLOCK_COUNT)` whose stored name equals `name`, it
returns `-1` exactly when no slot stores that name, and the image after the
call is the image before it. -/
theorem directory_lookup_lowest (img : Image) (name : List Nat)
    (hname : ∀ c ∈ name, c ≠ 0)
    (hterm : ∀ d, d < BLOCK_COUNT → 0 ∈ slot_bytes img d) :
    (∀ i : Nat, (directory_lookup img name).1 = (i : Int) ↔
      (i < BLOCK_COUNT ∧ slot_name img i = name ∧ ∀ j, j < i → slot_name img j ≠ name)) ∧
    ((directory_lookup img name).1 = -1 ↔ ∀ i, i < BLOCK_COUNT → slot_name img i ≠ name) ∧
    (directory_lookup img name).2 = img := by
  have hiff : ∀ d, d < BLOCK_COUNT →
      (strcmp img name (directory_get d) = 0 ↔ slot_name img d = name) :=
    fun d hd => strcmp_slot_iff img name d hname (hterm d hd)
  rcases directory_lookup_cases img name with ⟨hnone, e⟩ | ⟨k, hk, hk0, hlow, e⟩
  · rw [e]
    refine ⟨?_, ?_, rfl⟩
    · intro i
      constructor
      · intro h
        have : (-1 : Int) = (i : Int) := h
        omega
      · rintro ⟨hi, hs, _⟩
        exact absurd ((hiff i hi).2 hs) (hnone i hi)
    · constructor
      · intro _ i hi hs
        exact hnone i hi ((hiff i hi).2 hs)
      · intro _; rfl
  · rw [e]
    refine ⟨?_, ?_, rfl⟩
    · intro i
      constructor
      · intro h
        have hki : k = i := by
          have : (k : Int) = (i : Int) := h
          exact_mod_cast this
        subst hki
        exact ⟨hk, (hiff k hk).1 hk0,
          fun j hj hs => hlow j hj ((hiff j (by omega)).2 hs)⟩
      · rintro ⟨hi, hs, hmin⟩
        have hki : k = i := by
          rcases Nat.lt_trichotomy k i with h | h | h
          · exact absurd ((hiff k hk).1 hk0) (hmin k h)
          · exact h
          · exact absurd ((hiff i hi).2 hs) (hlow i h)
        show (k : Int) = (i : Int)
        rw [hki]
    · constructor
      · intro h
        have : (k : Int) = -1 := h
        omega
      · intro h
        exact absurd ((hiff k hk).1 hk0) (h k hk)

theorem directory_lookup_lowest_witness :
    ((∀ c ∈ [47, 97], c ≠ 0) ∧ ∀ d, d < BLOCK_COUNT → 0 ∈ slot_bytes (blocks_init []) d) ∧
    ((directory_lookup (blocks_init []) [47, 97]).1 = -1 ↔
      ∀ i, i < BLOCK_COUNT → slot_name (blocks_init []) i ≠ [47, 97]) ∧
    (directory_lookup (blocks_init []) [47, 97]).2 = blocks_init [] :=
  ⟨⟨by decide, fun d _ => fresh_slot_terminated d⟩,
    (directory_lookup_lowest (blocks_init []) [47, 97] (by decide)
      (fun d _ => fresh_slot_terminated d)).2⟩

/-- C10 as stated fails: on a newly created image every directory slot is
all-zero, and the lookup of the empty name returns slot 0. -/
theorem directory_lookup_empty_name_found :
    (∀ d, d < BLOCK_COUNT → ∀ k, k < 64 → load (blocks_init []) (directory_get d + k) = 0) ∧
      (directory_lookup (blocks_init []) []).1 = 0 := by
  constructor
  · intro d _ k _
    apply load_fresh
    have := directory_get_pos d
    omega
  · have h0 : strcmp (blocks_init []) [] (directory_get 0) = 0 := by
      rw [strcmp, load_fresh _ (directory_get_pos 0)]
      rfl
    have e := directory_lookup_loop_some (blocks_init []) [] BLOCK_COUNT 0 0 (Nat.le_refl _)
      (by decide) h0 (fun j h1 h2 => by omega)
    unfold directory_lookup
    rw [e]
    rfl

/-- A non-empty name never compares equal to a slot whose first byte is NUL. -/
theorem strcmp_empty_slot (img : Image) (name : List Nat) (p : Nat) (hne : name ≠ [])
    (hname : ∀ c ∈ name, c ≠ 0) (h0 : load img p = 0) : strcmp img name p ≠ 0 := by
  cases name with
  | nil => exact absurd rfl hne
  | cons c cs =>
    have hc : c ≠ 0 := hname c (List.mem_cons_self _ _)
    rw [strcmp, h0, if_pos hc]
    intro e
    apply hc
    have : (c : Int) = 0 := by simpa using e
    exact_mod_cast this

/-- C10, amended. An empty slot matches no lookup of a non-empty name: for
every name of at least one byte (none of them NUL), `directory_lookup` never
returns the index of an all-zero slot, and if each of the `BLOCK_COUNT` slots
is all-zero it returns `-1`. -/
theorem directory_lookup_skips_empty (img : Image) (name : List Nat) (hne : name ≠ [])
    (hname : ∀ c ∈ name, c ≠ 0) :
    (∀ d : Nat, (∀ k, k < 64 → load img (directory_get d + k) = 0) →
      (directory_lookup img name).1 ≠ (d : Int)) ∧
    ((∀ d, d < BLOCK_COUNT → ∀ k, k < 64 → load img (directory_get d + k) = 0) →
      (directory_lookup img name).1 = -1) := by
  constructor
  · intro d hd hres
    rcases directory_lookup_cases img name with ⟨_, e⟩ | ⟨k, _, hk0, _, e⟩
    · rw [e] at hres
      have : (-1 : Int) = (d : Int) := hres
      omega
    · rw [e] at hres
      have hkd : k = d := by
        have : (k : Int) = (d : Int) := hres
        exact_mod_cast this
      subst hkd
      exact strcmp_empty_slot img name (directory_get k) hne hname (hd 0 (by decide)) hk0
  · intro hall
    rcases directory_lookup_cases img name with ⟨_, e⟩ | ⟨k, hk, hk0, _, e⟩
    · rw [e]
    · exact absurd hk0
        (strcmp_empty_slot img name (directory_get k) hne hname (hall k hk 0 (by decide)))

theorem directory_lookup_skips_empty_witness :
    (([47, 97] : List Nat) ≠ [] ∧ ∀ c ∈ [47, 97], c ≠ 0) ∧
    ((∀ d, d < BLOCK_COUNT → ∀ k, k < 64 → load (blocks_init []) (directory_get d + k) = 0) →
      (directory_lookup (blocks_init []) [47, 97]).1 = -1) :=
  ⟨⟨by decide, by decide⟩,
    (directory_lookup_skips_empty (blocks_init []) [47, 97] (by decide) (by decide)).2⟩

/-! ## Ceiling division and the frame of `bitmap_put` -/

theorem bytes_to_blocks_spec (bytes : Int) (h0 : 0 ≤ bytes) :
    0 ≤ bytes_to_blocks bytes ∧ bytes ≤ bytes_to_blocks bytes * (BLOCK_SIZE : Int) ∧
      ∀ m : Int, bytes ≤ m * (BLOCK_SIZE : Int) → bytes_to_blocks bytes ≤ m := by
  have hB : (BLOCK_SIZE : Int) = 4096 := by decide
  have hdm := Int.tdiv_add_tmod bytes (BLOCK_SIZE : Int)
  have hr0 := Int.tmod_nonneg (BLOCK_SIZE : Int) h0
  have hr1 := Int.tmod_lt_of_pos bytes (show (0 : Int) < (BLOCK_SIZE : Int) by rw [hB]; decide)
  have hq0 : 0 ≤ Int.tdiv bytes (BLOCK_SIZE : Int) :=
    Int.tdiv_nonneg h0 (by rw [hB]; decide)
  unfold bytes_to_blocks
  rw [hB] at hdm hr0 hr1 hq0 ⊢
  by_cases hr : Int.tmod bytes 4096 = 0
  · simp only [hr, if_true]
    refine ⟨hq0, by omega, ?_⟩
    intro m hm
    omega
  · simp only [hr, if_false]
    refine ⟨by omega, by omega, ?_⟩
    intro m hm
    omega

/-- C17. The function `bytes_to_blocks` is ceiling division: for every byte
count `bytes ≥ 0`, `bytes_to_blocks(bytes)` is the least `n ≥ 0` with
`n * BLOCK_SIZE ≥ bytes`; it is 0 for 0, 1 for 1..4096 and 2 for 4097. -/
theorem bytes_to_blocks_ceiling (bytes : Int) (h0 : 0 ≤ bytes) :
    (0 ≤ bytes_to_blocks bytes ∧ bytes ≤ bytes_to_blocks bytes * (BLOCK_SIZE : Int) ∧
      ∀ m : Int, 0 ≤ m → bytes ≤ m * (BLOCK_SIZE : Int) → bytes_to_blocks bytes ≤ m) ∧
    bytes_to_blocks 0 = 0 ∧
    (1 ≤ bytes → bytes ≤ 4096 → bytes_to_blocks bytes = 1) ∧
    bytes_to_blocks 4097 = 2 := by
  obtain ⟨h1, h2, h3⟩ := bytes_to_blocks_spec bytes h0
  have hB : (BLOCK_SIZE : Int) = 4096 := by decide
  refine ⟨⟨h1, h2, fun m _ hm => h3 m hm⟩, by decide, ?_, by decide⟩
  intro ha hb
  have hle := h3 1 (by rw [hB]; omega)
  rw [hB] at h2
  omega

theorem bytes_to_blocks_ceiling_witness :
    (0 : Int) ≤ 5000 ∧ 5000 ≤ bytes_to_blocks 5000 * (BLOCK_SIZE : Int) :=
  ⟨by decide, (bytes_to_blocks_ceiling 5000 (by decide)).1.2.1⟩

/-- C18. The function `bitmap_put` changes only the addressed bit: for a
bitmap of `len` bytes at offset `bm` of the image, bit indices `i` and `j`
below `8 * len` with `j ≠ i`, and every value `v`, `bitmap_get(bm, j)` is the
same before and after `bitmap_put(bm, i, v)`, no byte of the image other than
byte `i / 8` of the bitmap is modified, and the image keeps its length. -/
theorem bitmap_put_frame (img : Image) (bm len i j : Nat) (v : Int)
    (hbm : bm + len ≤ img.length) (hi : i < 8 * len) (hj : j < 8 * len) (hne : j ≠ i) :
    bitmap_get (bitmap_put img bm i v) bm j = bitmap_get img bm j ∧
    (∀ q, q ≠ bm + i / 8 → (bitmap_put img bm i v)[q]? = img[q]?) ∧
    (bitmap_put img bm i v).length = img.length :=
  ⟨bitmap_get_put_other img bm i j v hne,
    fun q hq => getElem?_bitmap_put_other img bm i q v hq,
    length_bitmap_put img bm i v⟩

theorem bitmap_put_frame_witness :
    (0 + 2 ≤ [170, 255].length ∧ 11 < 8 * 2 ∧ 3 < 8 * 2 ∧ 3 ≠ 11) ∧
      bitmap_get (bitmap_put [170, 255] 0 11 0) 0 3 = bitmap_get [170, 255] 0 3 :=
  ⟨by decide, (bitmap_put_frame [170, 255] 0 2 11 3 0 (by decide) (by decide) (by decide)
    (by decide)).1⟩

/-! ## Existence check, attributes and directory listing -/

theorem directory_lookup_snd (img : Image) (name : List Nat) :
    (directory_lookup img name).2 = img := by
  rcases directory_lookup_cases img name with ⟨_, e⟩ | ⟨k, _, _, _, e⟩ <;> rw [e]

/-- C14. Existence check: for every image, path and mask,
`nufs_access(path, mask)` returns 0 exactly when `directory_lookup(path)`
finds the name (returns a value `≥ 0`) and returns `-ENOENT` otherwise; the
result is the same for every mask and the image is unchanged. -/
theorem nufs_access_spec (img : Image) (path : List Nat) (mask : Int) :
    ((nufs_access img path mask).1 = 0 ↔ 0 ≤ (directory_lookup img path).1) ∧
    (¬ 0 ≤ (directory_lookup img path).1 → (nufs_access img path mask).1 = -ENOENT) ∧
    (∀ mask2 : Int, nufs_access img path mask2 = nufs_access img path mask) ∧
    (nufs_access img path mask).2 = img := by
  have hE : ENOENT = 2 := rfl
  have hsnd := directory_lookup_snd img path
  refine ⟨?_, ?_, fun _ => rfl, ?_⟩
  · unfold nufs_access
    dsimp only
    by_cases h : (directory_lookup img path).1 ≥ 0
    · rw [if_pos h]
      exact ⟨fun _ => h, fun _ => rfl⟩
    · rw [if_neg h]
      constructor
      · intro e
        have e2 : -ENOENT = 0 := e
        rw [hE] at e2
        exact absurd e2 (by decide)
      · intro e
        exact absurd e h
  · intro h
    unfold nufs_access
    dsimp only
    rw [if_neg h]
  · unfold nufs_access
    dsimp only
    by_cases h : (directory_lookup img path).1 ≥ 0
    · rw [if_pos h]; exact hsnd
    · rw [if_neg h]; exact hsnd

theorem nufs_getattr_fst_eq_zero (img : Image) (uid : Nat) (path : List Nat) (st : Stat) :
    (nufs_getattr img uid path st).1 = 0 ↔ 0 ≤ (directory_lookup img path).1 := by
  have hE : ENOENT = 2 := rfl
  unfold nufs_getattr
  dsimp only
  by_cases hneg : (directory_lookup img path).1 < 0
  · rw [if_pos hneg]
    constructor
    · intro e
      have e2 : -ENOENT = 0 := e
      rw [hE] at e2
      exact absurd e2 (by decide)
    · intro e
      omega
  · rw [if_neg hneg]
    exact ⟨fun _ => by omega, fun _ => rfl⟩

theorem nufs_getattr_snd (img : Image) (uid : Nat) (path : List Nat) (st : Stat) :
    (nufs_getattr img uid path st).2.2 = img := by
  have hsnd := directory_lookup_snd img path
  unfold nufs_getattr
  dsimp only
  by_cases hneg : (directory_lookup img path).1 < 0
  · rw [if_pos hneg]; exact hsnd
  · rw [if_neg hneg]; exact hsnd

/-- C20. Directory listing assertions: for every image, `nufs_readdir` passes
both of its assertions exactly when `directory_lookup` finds both `"/"` and
`"/hello.txt"`; when it completes it returns 0, leaves the image unchanged and
has applied the filler to exactly two entries, `"."` and then `"hello.txt"`,
whatever else the directory holds. -/
theorem nufs_readdir_spec {β : Type} (img : Image) (uid : Nat) (st0 : Stat) (path : List Nat)
    (buf : β) (filler : β → List Nat → Stat → β) (offset : Int) :
    ((nufs_readdir img uid st0 path buf filler offset).isSome ↔
      (0 ≤ (directory_lookup img str_root).1 ∧
        0 ≤ (directory_lookup img str_slash_hello_txt).1)) ∧
    (∀ r, nufs_readdir img uid st0 path buf filler offset = some r →
      r.1 = 0 ∧ r.2.2 = img ∧
      ∃ st1 st2 : Stat, r.2.1 = filler (filler buf str_dot st1) str_hello_txt st2) ∧
    (∀ r, nufs_readdir img uid st0 path [] record_entry offset = some r →
      r.2.1.map Prod.fst = [str_dot, str_hello_txt]) := by
  have key : ∀ {γ : Type} (b : γ) (f : γ → List Nat → Stat → γ),
      ((nufs_readdir img uid st0 path b f offset).isSome ↔
        (0 ≤ (directory_lookup img str_root).1 ∧
          0 ≤ (directory_lookup img str_slash_hello_txt).1)) ∧
      (∀ r, nufs_readdir img uid st0 path b f offset = some r →
        r.1 = 0 ∧ r.2.2 = img ∧
        ∃ st1 st2 : Stat, r.2.1 = f (f b str_dot st1) str_hello_txt st2) := by
    intro γ b f
    have h1 := nufs_getattr_fst_eq_zero img uid str_root st0
    have h2 := nufs_getattr_fst_eq_zero img uid str_slash_hello_txt
      (nufs_getattr img uid str_root st0).2.1
    unfold nufs_readdir
    dsimp only
    rw [nufs_getattr_snd img uid str_root st0]
    by_cases g1 : (nufs_getattr img uid str_root st0).1 = 0
    · by_cases g2 : (nufs_getattr img uid str_slash_hello_txt
          (nufs_getattr img uid str_root st0).2.1).1 = 0
      · simp only [ne_eq, g1, g2, not_true_eq_false, if_false, Option.isSome_some, true_iff]
        refine ⟨⟨h1.1 g1, h2.1 g2⟩, ?_⟩
        intro r hr
        have hr2 := (Option.some.inj hr).symm
        subst hr2
        exact ⟨rfl, nufs_getattr_snd _ _ _ _, _, _, rfl⟩
      · simp only [ne_eq, g1, g2, not_true_eq_false, not_false_eq_true, if_true, if_false,
          Option.isSome_none, Bool.false_eq_true, false_iff, not_and]
        exact ⟨fun _ c => g2 (h2.2 c), fun r hr => by cases hr⟩
    · simp only [ne_eq, g1, not_false_eq_true, if_true, Option.isSome_none,
        Bool.false_eq_true, false_iff, not_and]
      exact ⟨fun c => absurd (h1.2 c) g1, fun r hr => by cases hr⟩
  refine ⟨(key buf filler).1, (key buf filler).2, ?_⟩
  intro r hr
  obtain ⟨_, _, st1, st2, e⟩ := (key ([] : List (List Nat × Stat)) record_entry).2 r hr
  rw [e]
  simp [record_entry]

/-! ## Writing a name into a directory slot -/

theorem length_strncpy :
    ∀ (n : Nat) (img : Image) (dst : Nat) (src : List Nat),
      (strncpy img dst src n).length = img.length := by
  intro n
  induction n with
  | zero => intro img dst src; rw [strncpy]
  | succ n ih =>
    intro img dst src
    cases src with
    | nil => rw [strncpy, ih, length_store]
    | cons c cs =>
      rw [strncpy]
      by_cases hc : c = 0
      · rw [if_pos hc, ih, length_store]
      · rw [if_neg hc, ih, length_store]

/-- The bytes outside the `n` bytes from `dst` keep their value. -/
theorem getElem?_strncpy_outside :
    ∀ (n : Nat) (img : Image) (dst : Nat) (src : List Nat) (q : Nat),
      (q < dst ∨ dst + n ≤ q) → (strncpy img dst src n)[q]? = img[q]? := by
  intro n
  induction n with
  | zero => intro img dst src q _; rw [strncpy]
  | succ n ih =>
    intro img dst src q hq
    have hq1 : q < dst + 1 ∨ dst + 1 + n ≤ q := by omega
    have hq2 : q ≠ dst := by omega
    cases src with
    | nil => rw [strncpy, ih _ _ _ _ hq1, getElem?_store_other _ _ _ _ hq2]
    | cons c cs =>
      rw [strncpy]
      by_cases hc : c = 0
      · rw [if_pos hc, ih _ _ _ _ hq1, getElem?_store_other _ _ _ _ hq2]
      · rw [if_neg hc, ih _ _ _ _ hq1, getElem?_store_other _ _ _ _ hq2]

theorem load_strncpy_outside (n : Nat) (img : Image) (dst : Nat) (src : List Nat) (q : Nat)
    (hq : q < dst ∨ dst + n ≤ q) : load (strncpy img dst src n) q = load img q := by
  unfold load
  rw [List.getD_eq_getElem?_getD, List.getD_eq_getElem?_getD,
    getElem?_strncpy_outside n img dst src q hq]

theorem read_bytes_congr (a b : Image) :
    ∀ (n p : Nat), (∀ k, k < n → load a (p + k) = load b (p + k)) →
      read_bytes a p n = read_bytes b p n := by
  intro n
  induction n with
  | zero => intro p _; rw [read_bytes, read_bytes]
  | succ n ih =>
    intro p h
    rw [read_bytes, read_bytes, ih (p + 1) (fun k hk => by
      have := h (k + 1) (by omega)
      rw [show p + 1 + k = p + (k + 1) by omega]
      exact this)]
    have h0 := h 0 (by omega)
    rw [Nat.add_zero] at h0
    rw [h0]

theorem length_read_bytes (img : Image) :
    ∀ (n p : Nat), (read_bytes img p n).length = n := by
  intro n
  induction n with
  | zero => intro p; rw [read_bytes]; rfl
  | succ n ih => intro p; rw [read_bytes, List.length_cons, ih]

/-- The `n` bytes that `strncpy` writes: the source, then NUL bytes, cut to
`n` bytes. -/
theorem read_bytes_strncpy :
    ∀ (n : Nat) (img : Image) (dst : Nat) (src : List Nat),
      (∀ c ∈ src, c ≠ 0 ∧ c < 256) → dst + n ≤ img.length →
      read_bytes (strncpy img dst src n) dst n
        = (src ++ List.replicate (n - src.length) 0).take n := by
  intro n
  induction n with
  | zero =>
    intro img dst src _ _
    rw [read_bytes, List.take_zero]
  | succ n ih =>
    intro img dst src hsrc hlen
    have hdst : dst < img.length := by omega
    cases src with
    | nil =>
      rw [strncpy, read_bytes, load_strncpy_outside n _ (dst + 1) [] dst (by omega),
        load_store_same _ _ _ hdst,
        ih (store img dst 0) (dst + 1) [] (fun c hc => by cases hc)
          (by rw [length_store]; omega)]
      simp [List.replicate_succ]
    | cons c cs =>
      have hc := hsrc c (List.mem_cons_self _ _)
      rw [strncpy, if_neg hc.1, read_bytes,
        load_strncpy_outside n _ (dst + 1) cs dst (by omega), load_store_same _ _ _ hdst,
        ih (store img dst c) (dst + 1) cs (fun x hx => hsrc x (List.mem_cons_of_mem _ hx))
          (by rw [length_store]; omega),
        Nat.mod_eq_of_lt hc.2]
      simp

theorem takeWhile_name_nul (name rest : List Nat) (hname : ∀ c ∈ name, c ≠ 0) :
    (name ++ 0 :: rest).takeWhile (fun b => b != 0) = name := by
  induction name with
  | nil => simp
  | cons c cs ih =>
    have hc : c ≠ 0 := hname c (List.mem_cons_self _ _)
    rw [List.cons_append, List.takeWhile_cons]
    simp only [bne_iff_ne, ne_eq, hc, not_false_eq_true, if_true]
    rw [ih (fun x hx => hname x (List.mem_cons_of_mem _ hx))]

theorem directory_slot_lt (img : Image) (d : Nat) (hd : d < BLOCK_COUNT)
    (himg : blocks_get_block 5 ≤ img.length) : directory_get d + 64 ≤ img.length := by
  obtain ⟨h1, h2, _, _, _, _⟩ := layout_constants
  simp only [directory_get, blocks_get_block, h1, h2] at hd himg ⊢
  omega

/-- After `directory_put(d, name)` slot `d` holds the first 64 bytes of the
name followed by NUL bytes. -/
theorem slot_bytes_directory_put_same (img : Image) (d : Nat) (name : List Nat)
    (hd : d < BLOCK_COUNT) (himg : blocks_get_block 5 ≤ img.length)
    (hname : ∀ c ∈ name, c ≠ 0 ∧ c < 256) :
    slot_bytes (directory_put img d name) d
      = (name ++ List.replicate (64 - name.length) 0).take 64 := by
  unfold slot_bytes directory_put
  exact read_bytes_strncpy 64 img (directory_get d) name hname (directory_slot_lt img d hd himg)

/-- The bytes outside slot `d` keep their value. -/
theorem getElem?_directory_put_outside (img : Image) (d : Nat) (name : List Nat) (q : Nat)
    (hq : q < directory_get d ∨ directory_get d + 64 ≤ q) :
    (directory_put img d name)[q]? = img[q]? := by
  unfold directory_put
  exact getElem?_strncpy_outside 64 img (directory_get d) name q hq

theorem slot_bytes_directory_put_other (img : Image) (d e : Nat) (name : List Nat)
    (hne : e ≠ d) : slot_bytes (directory_put img d name) e = slot_bytes img e := by
  unfold slot_bytes
  apply read_bytes_congr
  intro k hk
  unfold directory_put
  apply load_strncpy_outside
  simp only [directory_get]
  omega

/-- For a name shorter than `n` bytes, `strcmp(name, p) == 0` holds exactly
when the string stored in the `n` bytes from `p` is `name`. -/
theorem strcmp_eq_zero_iff_short (img : Image) :
    ∀ (name : List Nat) (p n : Nat), (∀ c ∈ name, c ≠ 0) → name.length < n →
      (strcmp img name p = 0 ↔ (read_bytes img p n).takeWhile (fun b => b != 0) = name) := by
  intro name
  induction name with
  | nil =>
    intro p n _ hn
    cases n with
    | zero => exact absurd hn (by decide)
    | succ n =>
      rw [strcmp, read_bytes, List.takeWhile_cons]
      by_cases h0 : load img p = 0
      · simp [h0]
      · simp [h0]
  | cons c cs ih =>
    intro p n hname hn
    have hc : c ≠ 0 := hname c (List.mem_cons_self _ _)
    cases n with
    | zero => exact absurd hn (by omega)
    | succ n =>
      rw [strcmp, read_bytes, List.takeWhile_cons]
      by_cases hd : c ≠ load img p
      · rw [if_pos hd]
        have hsub : (c : Int) - (load img p : Int) ≠ 0 := by
          intro e
          apply hd
          have : (c : Int) = (load img p : Int) := by omega
          exact_mod_cast this
        constructor
        · intro e; exact absurd e hsub
        · intro e
          exfalso
          by_cases h0 : load img p = 0
          · simp [h0] at e
          · simp [h0] at e
            exact hd e.1.symm
      · have heq : c = load img p := by
          by_contra x; exact hd x
        rw [if_neg hd, if_neg hc]
        have hl0 : load img p ≠ 0 := heq ▸ hc
        rw [ih (p + 1) n (fun x hx => hname x (List.mem_cons_of_mem _ hx))
          (by rw [List.length_cons] at hn; omega)]
        simp [hl0, heq]

/-- The lookup of a name shorter than 64 bytes returns the lowest slot that
stores it. -/
theorem directory_lookup_of_slot_name (img : Image) (name : List Nat) (k : Nat)
    (hname : ∀ c ∈ name, c ≠ 0) (hlen : name.length < 64) (hk : k < BLOCK_COUNT)
    (hfound : slot_name img k = name) (hlow : ∀ j, j < k → slot_name img j ≠ name) :
    directory_lookup img name = ((k : Int), img) := by
  have hiff : ∀ d, strcmp img name (directory_get d) = 0 ↔ slot_name img d = name :=
    fun d => strcmp_eq_zero_iff_short img name (directory_get d) 64 hname hlen
  unfold directory_lookup
  exact directory_lookup_loop_some img name BLOCK_COUNT 0 k (Nat.zero_le _) (by omega)
    ((hiff k).2 hfound) (fun j _ hj c => hlow j hj ((hiff j).1 c))

theorem slot_name_directory_put_same (img : Image) (d : Nat) (name : List Nat)
    (hd : d < BLOCK_COUNT) (himg : blocks_get_block 5 ≤ img.length)
    (hname : ∀ c ∈ name, c ≠ 0 ∧ c < 256) (hlen : name.length ≤ 63) :
    slot_bytes (directory_put img d name) d = name ++ List.replicate (64 - name.length) 0 ∧
    slot_name (directory_put img d name) d = name := by
  have hb := slot_bytes_directory_put_same img d name hd himg hname
  have htake : (name ++ List.replicate (64 - name.length) 0).take 64
      = name ++ List.replicate (64 - name.length) 0 := by
    apply List.take_of_length_le
    rw [List.length_append, List.length_replicate]
    omega
  rw [htake] at hb
  refine ⟨hb, ?_⟩
  unfold slot_name
  rw [hb]
  have hrep : List.replicate (64 - name.length) 0
      = (0 : Nat) :: List.replicate (63 - name.length) 0 := by
    rw [show 64 - name.length = (63 - name.length) + 1 by omega, List.replicate_succ]
  rw [hrep]
  exact takeWhile_name_nul name _ (fun c hc => (hname c hc).1)

theorem slot_name_directory_put_other (img : Image) (d e : Nat) (name : List Nat)
    (hne : e ≠ d) : slot_name (directory_put img d name) e = slot_name img e := by
  unfold slot_name
  rw [slot_bytes_directory_put_other img d e name hne]

/-- The lookup of a name just put into slot `d`, when no slot below `d`
stores it. -/
theorem directory_lookup_directory_put (img : Image) (d : Nat) (name : List Nat)
    (hd : d < BLOCK_COUNT) (himg : blocks_get_block 5 ≤ img.length)
    (hname : ∀ c ∈ name, c ≠ 0 ∧ c < 256) (hlen : name.length ≤ 63)
    (hlow : ∀ j, j < d → slot_name img j ≠ name) :
    directory_lookup (directory_put img d name) name
      = ((d : Int), directory_put img d name) := by
  apply directory_lookup_of_slot_name _ name d (fun c hc => (hname c hc).1) (by omega) hd
    (slot_name_directory_put_same img d name hd himg hname hlen).2
  intro j hj
  rw [slot_name_directory_put_other img d j name (by omega)]
  exact hlow j hj

/-- C19. Directory put/lookup round-trip: for every image that holds the
directory, slot index `d < BLOCK_COUNT` and name of at most 63 bytes (none of
them NUL), after `directory_put(d, name)` slot `d` holds the name followed by
NUL bytes up to 64, every byte outside slot `d` and so every other slot is
unchanged, and `directory_lookup(name)` returns `d` when no slot below `d`
stores the name, and otherwise the lowest slot that stores it. -/
theorem directory_put_lookup_roundtrip (img : Image) (d : Nat) (name : List Nat)
    (hd : d < BLOCK_COUNT) (himg : blocks_get_block 5 ≤ img.length)
    (hname : ∀ c ∈ name, c ≠ 0 ∧ c < 256) (hlen : name.length ≤ 63) :
    slot_bytes (directory_put img d name) d = name ++ List.replicate (64 - name.length) 0 ∧
    (∀ q, (q < directory_get d ∨ directory_get d + 64 ≤ q) →
      (directory_put img d name)[q]? = img[q]?) ∧
    (∀ e, e ≠ d → slot_bytes (directory_put img d name) e = slot_bytes img e) ∧
    ((∀ j, j < d → slot_name img j ≠ name) →
      (directory_lookup (directory_put img d name) name).1 = (d : Int)) ∧
    (∀ j, j < d → slot_name img j = name → (∀ i, i < j → slot_name img i ≠ name) →
      (directory_lookup (directory_put img d name) name).1 = (j : Int)) := by
  refine ⟨(slot_name_directory_put_same img d name hd himg hname hlen).1,
    fun q hq => getElem?_directory_put_outside img d name q hq,
    fun e he => slot_bytes_directory_put_other img d e name he, ?_, ?_⟩
  · intro hlow
    rw [directory_lookup_directory_put img d name hd himg hname hlen hlow]
  · intro j hj hfound hlow
    rw [directory_lookup_of_slot_name (directory_put img d name) name j
      (fun c hc => (hname c hc).1) (by omega) (by omega)
      (by rw [slot_name_directory_put_other img d j name (by omega)]; exact hfound)
      (fun i hi => by
        rw [slot_name_directory_put_other img d i name (by omega)]
        exact hlow i hi)]

theorem directory_put_lookup_roundtrip_witness :
    (7 < BLOCK_COUNT ∧ blocks_get_block 5 ≤ (blocks_init []).length ∧
      (∀ c ∈ [47, 97], c ≠ 0 ∧ c < 256) ∧ [47, 97].length ≤ 63) ∧
    slot_bytes (directory_put (blocks_init []) 7 [47, 97]) 7
      = [47, 97] ++ List.replicate (64 - [47, 97].length) 0 :=
  ⟨⟨by decide, by rw [length_blocks_init]; decide, by decide, by decide⟩,
    (directory_put_lookup_roundtrip (blocks_init []) 7 [47, 97] (by decide)
      (by rw [length_blocks_init]; decide) (by decide) (by decide)).1⟩

/-! ## The directory of a newly created image -/

theorem read_bytes_zero (img : Image) :
    ∀ (n p : Nat), (∀ k, k < n → load img (p + k) = 0) →
      read_bytes img p n = List.replicate n 0 := by
  intro n
  induction n with
  | zero => intro p _; rw [read_bytes]; rfl
  | succ n ih =>
    intro p h
    have h0 := h 0 (by omega)
    rw [Nat.add_zero] at h0
    rw [read_bytes, h0, List.replicate_succ, ih (p + 1) (fun k hk => by
      have := h (k + 1) (by omega)
      rw [show p + 1 + k = p + (k + 1) by omega]
      exact this)]

theorem slot_bytes_fresh (d : Nat) : slot_bytes (blocks_init []) d = List.replicate 64 0 := by
  unfold slot_bytes
  apply read_bytes_zero
  intro k _
  apply load_fresh
  have := directory_get_pos d
  omega

theorem fresh_holds_directory : blocks_get_block 5 ≤ (blocks_init []).length := by
  rw [length_blocks_init]
  decide

/-- A name that compares equal to the string at `p` has no NUL byte of the
image under any of its bytes. -/
theorem strcmp_eq_zero_load_ne_zero (img : Image) :
    ∀ (name : List Nat) (p : Nat), (∀ c ∈ name, c ≠ 0) → strcmp img name p = 0 →
      ∀ k, k < name.length → load img (p + k) ≠ 0 := by
  intro name
  induction name with
  | nil => intro p _ _ k hk; exact absurd hk (Nat.not_lt_zero k)
  | cons c cs ih =>
    intro p hname h k hk
    have hc : c ≠ 0 := hname c (List.mem_cons_self _ _)
    rw [strcmp] at h
    by_cases hd : c ≠ load img p
    · rw [if_pos hd] at h
      exfalso
      apply hd
      have : (c : Int) = (load img p : Int) := by omega
      exact_mod_cast this
    · have heq : c = load img p := by
        by_contra x; exact hd x
      rw [if_neg hd, if_neg hc] at h
      cases k with
      | zero =>
        rw [Nat.add_zero, ← heq]
        exact hc
      | succ k =>
        have := ih (p + 1) (fun x hx => hname x (List.mem_cons_of_mem _ hx)) h k
          (by rw [List.length_cons] at hk; omega)
        rw [show p + (k + 1) = p + 1 + k by omega]
        exact this

/-- C12 on the code: `directory_put` of a name of 65 bytes into slot 0 of a
new image reports nothing and changes the slot, from 64 NUL bytes to the first
64 bytes of the name with no NUL byte left in the slot; `directory_lookup` of
that name on the resulting image returns `-1`. -/
theorem directory_put_stores_truncated_name :
    64 < (List.replicate 65 97).length ∧
    slot_bytes (blocks_init []) 0 = List.replicate 64 0 ∧
    slot_bytes (directory_put (blocks_init []) 0 (List.replicate 65 97)) 0
      = List.replicate 64 97 ∧
    0 ∉ slot_bytes (directory_put (blocks_init []) 0 (List.replicate 65 97)) 0 ∧
    (directory_lookup (directory_put (blocks_init []) 0 (List.replicate 65 97))
      (List.replicate 65 97)).1 = -1 := by
  have hname : ∀ c ∈ List.replicate 65 97, c ≠ 0 ∧ c < 256 := by
    intro c hc
    rw [List.eq_of_mem_replicate hc]
    decide
  have hslot : slot_bytes (directory_put (blocks_init []) 0 (List.replicate 65 97)) 0
      = List.replicate 64 97 := by
    rw [slot_bytes_directory_put_same (blocks_init []) 0 (List.replicate 65 97) (by decide)
      fresh_holds_directory hname]
    decide
  have hout : ∀ q, directory_get 0 + 64 ≤ q →
      load (directory_put (blocks_init []) 0 (List.replicate 65 97)) q = 0 := by
    intro q hq
    unfold directory_put
    rw [load_strncpy_outside 64 _ _ _ q (Or.inr hq)]
    apply load_fresh
    have := directory_get_pos 0
    omega
  refine ⟨by decide, slot_bytes_fresh 0, hslot, ?_, ?_⟩
  · rw [hslot]
    decide
  · have hnone : directory_lookup (directory_put (blocks_init []) 0 (List.replicate 65 97))
        (List.replicate 65 97)
        = (-1, directory_put (blocks_init []) 0 (List.replicate 65 97)) := by
      unfold directory_lookup
      apply directory_lookup_loop_none
      intro j _ _ h0
      by_cases hj : j = 0
      · subst hj
        exact strcmp_eq_zero_load_ne_zero _ _ _ (fun c hc => (hname c hc).1) h0 64
          (by decide) (hout _ (Nat.le_refl _))
      · exact strcmp_eq_zero_load_ne_zero _ _ _ (fun c hc => (hname c hc).1) h0 0
          (by decide) (hout _ (by
            simp only [directory_get]
            omega))
    rw [hnone]

/-! ## The file operations that the code leaves unimplemented -/

theorem directory_lookup_fresh (name : List Nat) (hne : name ≠ [])
    (hname : ∀ c ∈ name, c ≠ 0) :
    directory_lookup (blocks_init []) name = (-1, blocks_init []) := by
  unfold directory_lookup
  apply directory_lookup_loop_none
  intro j _ _
  exact strcmp_empty_slot (blocks_init []) name (directory_get j) hne hname
    (load_fresh _ (directory_get_pos j))

/-- C15 on the code: on a new image, `nufs_write` of the two bytes `"hi"` at
offset 0 of `"/hello.txt"` returns `-1` and leaves the image as it is, and
`nufs_read` of two bytes at offset 0 returns 6 and fills the buffer with
`"hello\n"` and a NUL. -/
theorem nufs_write_read_at_hi :
    nufs_write (blocks_init []) str_slash_hello_txt [104, 105] 2 0 = (-1, blocks_init []) ∧
    nufs_read (blocks_init []) str_slash_hello_txt [0, 0] 2 0
      = (6, [104, 101, 108, 108, 111, 10, 0], blocks_init []) ∧
    (nufs_read (blocks_init []) str_slash_hello_txt [0, 0] 2 0).1 ≠ 2 :=
  ⟨rfl, rfl, by decide⟩

/-- C16 on the code: on a new image, where `directory_lookup` does not find
`"/x"`, `nufs_mknod` of `"/x"` returns `-1` and leaves the image as it is, so
that `directory_lookup` does not find `"/x"` afterwards either. -/
theorem nufs_mknod_at_fresh :
    (directory_lookup (blocks_init []) [47, 120]).1 = -1 ∧
    nufs_mknod (blocks_init []) [47, 120] 0o100644 0 = (-1, blocks_init []) ∧
    (directory_lookup (nufs_mknod (blocks_init []) [47, 120] 0o100644 0).2 [47, 120]).1 = -1 := by
  have h := directory_lookup_fresh [47, 120] (by decide) (by decide)
  refine ⟨by rw [h], rfl, ?_⟩
  show (directory_lookup (blocks_init []) [47, 120]).1 = -1
  rw [h]

end Nufs
